import Mathlib

/-!
Verification of the Kodi add-on XML formatter (src/format_xml.py).

Strings are modelled as lists of characters (Python strings are sequences of
code points).  All functions are written with structural or fuel-based
recursion so that they evaluate inside the kernel.

The DOM stage of the pipeline (xml.dom.minidom.parseString followed by
toprettyxml, and xml.etree.ElementTree.fromstring used as a validity check)
is third-party library code that is not part of this repository; where a
claim depends on it, it is either kept abstract (a parameter of the
pipeline) or modelled from the specification of the Canonical Reformatter.
-/

abbrev Str := List Char

/-- Whitespace characters recognised by Python str.strip / str.rstrip
(ASCII subset; the source files are ASCII-oriented XML). -/
def isWs (c : Char) : Bool :=
  c = ' ' || c = '\t' || c = '\n' || c = '\r' || c = '\x0b' || c = '\x0c'

/-- Python str.lstrip(). -/
def pyLstrip (s : Str) : Str := s.dropWhile isWs

/-- Python str.rstrip(), as used at line 70 of format_xml.py. -/
def pyRstrip (s : Str) : Str := (s.reverse.dropWhile isWs).reverse

/-- Python str.strip(), as used at lines 62, 105 and 127 of format_xml.py. -/
def pyStrip (s : Str) : Str := pyRstrip (pyLstrip s)

/-- Python s.split(chr(10)), as used at line 61 of format_xml.py. -/
def splitNl : Str → List Str
  | [] => [[]]
  | c :: cs =>
    if c = '\n' then [] :: splitNl cs
    else
      match splitNl cs with
      | [] => [[c]]
      | l :: ls => (c :: l) :: ls

/-- Python (chr(10)).join(lines), as used at line 63 of format_xml.py. -/
def joinNl : List Str → Str
  | [] => []
  | [l] => l
  | l :: ls => l ++ '\n' :: joinNl ls

/-- Split a string at the first (leftmost) occurrence of a pattern,
returning the part before the occurrence and the part after it.
This is the primitive underlying both Python str.replace and the
scanning behaviour of re.finditer. -/
def splitFirst : Str → Str → Option (Str × Str)
  | [], _ => none
  | c :: cs, pat =>
    if pat.isPrefixOf (c :: cs) then some ([], (c :: cs).drop pat.length)
    else
      match splitFirst cs pat with
      | none => none
      | some (a, b) => some (c :: a, b)

/-- The pattern occurs somewhere in the string. -/
def occursIn (s pat : Str) : Bool := (splitFirst s pat).isSome

def replaceAllF : Nat → Str → Str → Str → Str
  | 0, s, _, _ => s
  | fuel+1, s, pat, rep =>
    match splitFirst s pat with
    | none => s
    | some (a, b) => a ++ rep ++ replaceAllF fuel b pat rep

/-- Python s.replace(pat, rep): replaces every non-overlapping occurrence,
scanning left to right (used at lines 49 and 67 of format_xml.py).
The pat = [] guard is irrelevant to the pipeline, which only ever replaces
nonempty patterns. -/
def replaceAll (s pat rep : Str) : Str :=
  if pat = [] then s else replaceAllF (s.length + 1) s pat rep

def countOccF : Nat → Str → Str → Nat
  | 0, _, _ => 0
  | fuel+1, s, pat =>
    match splitFirst s pat with
    | none => 0
    | some (_, b) => countOccF fuel b pat + 1

/-- Number of non-overlapping occurrences of a pattern, scanning left to
right (Python s.count). -/
def countOcc (s pat : Str) : Nat :=
  if pat = [] then 0 else countOccF (s.length + 1) s pat

/-- Decimal digit characters. -/
def digitChar (d : Nat) : Char :=
  match d with
  | 0 => '0' | 1 => '1' | 2 => '2' | 3 => '3' | 4 => '4'
  | 5 => '5' | 6 => '6' | 7 => '7' | 8 => '8' | _ => '9'

def natStrAux : Nat → Nat → Str
  | 0, _ => []
  | fuel+1, n =>
    if n = 0 then [] else natStrAux fuel (n / 10) ++ [digitChar (n % 10)]

/-- Decimal rendering of a natural number, as Python str(i) inside an
f-string. -/
def natStr (n : Nat) : Str :=
  if n = 0 then ['0'] else natStrAux (n + 1) n

/-- The fixed sentinel of the placeholder scheme at line 47 of
format_xml.py. -/
def sentinel : Str := "__CDATA_PLACEHOLDER_".data

/-- The placeholder token __CDATA_PLACEHOLDER_{i}__ built at line 47 of
format_xml.py. -/
def placeholder (i : Nat) : Str := sentinel ++ natStr i ++ ['_', '_']

/-- The opening delimiter of a CDATA literal section. -/
def cdOpen : Str := "<![CDATA[".data

/-- The closing delimiter of a CDATA literal section. -/
def cdClose : Str := "]]>".data

def cdataMatchesF : Nat → Str → List Str
  | 0, _ => []
  | fuel+1, s =>
    match splitFirst s cdOpen with
    | none => []
    | some (_, rest) =>
      match splitFirst rest cdClose with
      | none => []
      | some (c, rest2) => (cdOpen ++ c ++ cdClose) :: cdataMatchesF fuel rest2

/-- The full texts (group(0)) of the matches produced by
re.finditer(r"<!\x5bCDATA\x5b(.*?)\x5d\x5d>", s, re.DOTALL) at line 45 of
format_xml.py: left-to-right, non-overlapping, the content match being
non-greedy (each match closes at the first closing delimiter after its
opening delimiter). -/
def cdataMatches (s : Str) : List Str := cdataMatchesF (s.length + 1) s

/-- The loop at lines 46-49 of format_xml.py: for the i-th match, record
(placeholder i, match text) and replace every occurrence of the match text
in the working string by placeholder i. -/
def extractLoop : List Str → Nat → Str → Str × List (Str × Str)
  | [], _, rough => (rough, [])
  | m :: ms, i, rough =>
    let rough2 := replaceAll rough m (placeholder i)
    let r := extractLoop ms (i + 1) rough2
    (r.1, (placeholder i, m) :: r.2)

/-- CDATA extraction (lines 41-49 of format_xml.py): returns the working
text and the ordered (placeholder, original section) list. -/
def extractCdata (s : Str) : Str × List (Str × Str) :=
  extractLoop (cdataMatches s) 0 s

/-- CDATA restoration (lines 66-67 of format_xml.py): each placeholder is
replaced, in extraction order, by its original section text. -/
def restoreCdata (secs : List (Str × Str)) (t : Str) : Str :=
  secs.foldl (fun acc pm => replaceAll acc pm.1 pm.2) t

/-- Blank-line removal (lines 60-63 of format_xml.py): split on the line
feed, keep the lines whose strip() is nonempty, and join them back. -/
def removeBlankLines (s : Str) : Str :=
  joinNl ((splitNl s).filter (fun l => !(pyStrip l).isEmpty))

/-- pretty_print_xml (lines 24-76 of format_xml.py) on an input string.
The fmt parameter stands for the DOM stage (minidom.parseString followed
by toprettyxml and decoding, lines 52-58), which returns none when the
working text is not well-formed.  After the DOM stage the source removes
blank lines, restores the CDATA sections and terminates the text with
exactly one line feed. -/
def pretty_print_xml (fmt : Str → Option Str) (rough : Str)
    (preserve_cdata : Bool := true) : Option Str :=
  let cs := if preserve_cdata then extractCdata rough else (rough, [])
  match fmt cs.1 with
  | none => none
  | some pretty =>
    let p1 := removeBlankLines pretty
    let p2 := restoreCdata cs.2 p1
    some (pyRstrip p2 ++ ['\n'])

def cdataScanF : Nat → Str → List (Str × Str) × Str
  | 0, s => ([], s)
  | fuel+1, s =>
    match splitFirst s cdOpen with
    | none => ([], s)
    | some (g, rest) =>
      match splitFirst rest cdClose with
      | none => ([], s)
      | some (c, rest2) =>
        let r := cdataScanF fuel rest2
        ((g, cdOpen ++ c ++ cdClose) :: r.1, r.2)

/-- The gap/match decomposition induced by the CDATA scanner: the same
recursion as cdataMatches, additionally returning the texts between the
matches and the text after the last match. -/
def cdataScan (s : Str) : List (Str × Str) × Str := cdataScanF (s.length + 1) s

/-- Flattening of (gap, slot) pairs: g0 s0 g1 s1 ... -/
def flatSlots : List (Str × Str) → Str
  | [] => []
  | (g, t) :: rest => g ++ t ++ flatSlots rest

/-- The (placeholder, section) association list built by the extraction
loop, starting at index i. -/
def buildSecs : Nat → List Str → List (Str × Str)
  | _, [] => []
  | i, m :: ms => (placeholder i, m) :: buildSecs (i + 1) ms

/-- Replace each slot in a (gap, slot) pair list by the placeholder token
with consecutive indices starting at i. -/
def substP : Nat → List (Str × Str) → List (Str × Str)
  | _, [] => []
  | i, (g, _) :: rest => (g, placeholder i) :: substP (i + 1) rest

/-- Collision check for the section-replacement loop: at each step the
section text to be replaced occurs exactly once in the current working
string. -/
def extractUniqueF : List Str → Nat → Str → Bool
  | [], _, _ => true
  | m :: ms, i, s =>
    countOcc s m = 1 && extractUniqueF ms (i + 1) (replaceAll s m (placeholder i))

/-- Collision check for the restoration loop: at each step the placeholder
to be replaced occurs exactly once in the current string. -/
def restoreUniqueF : List (Str × Str) → Str → Bool
  | [], _ => true
  | (p, m) :: rest, s =>
    countOcc s p = 1 && restoreUniqueF rest (replaceAll s p m)

/-- The sentinel prefix of the placeholder tokens does not occur in the
text. -/
def sentinelFree (s : Str) : Bool := !(occursIn s sentinel)

/-- Decimal digit test. -/
def isDigitCh (c : Char) : Bool :=
  c = '0' || c = '1' || c = '2' || c = '3' || c = '4' ||
  c = '5' || c = '6' || c = '7' || c = '8' || c = '9'

/-- Numeric value of a digit character. -/
def digitVal (c : Char) : Nat := c.toNat - 48

/-- Numeric value of a big-endian digit string. -/
def valD (l : Str) : Nat := l.foldl (fun acc c => acc * 10 + digitVal c) 0

/-! ### Layout check for the restoration input

A decidable check that a text decomposes as sentinel-free gaps with each
recorded placeholder token planted in order, with a sentinel-free remainder
after the last token. -/

def layoutOkF : List (Str × Str) → Str → Bool
  | [], t => sentinelFree t
  | (p, _) :: rest, t =>
    match splitFirst t p with
    | none => false
    | some (a, b) => sentinelFree a && layoutOkF rest b

/-! ### The Canonical Reformatter (the DOM stage)

Modelled from the spec: the DOM stage of the source (xml.dom.minidom
parseString followed by toprettyxml, lines 52-58 of format_xml.py) is
third-party library code that is not part of this repository.  Following
section 4.2 of the specification, it is modelled as a parser to an element
tree followed by a deterministic serializer: each element on its own line,
children indented one additional unit (the default four spaces), attributes
in source order, empty elements self-closed, text content kept inline with
its owning element, the ampersand and angle brackets escaped in text, and
the declared encoding fixed to UTF-8.  The parser rejects text that is not
well-formed, in particular character data containing the sequence of two
closing square brackets and a greater-than sign, mismatched tags and an
unclosed element.  Comments, processing instructions other than the leading
XML declaration, entity references and mixed element/text content are
outside the modelled fragment and are rejected; CDATA sections are removed
by the vault before this stage ever runs on the pipeline's texts. -/

/-- Characters accepted in element and attribute names. -/
def nameChar (c : Char) : Bool :=
  c.isAlpha || c.isDigit || c = '_' || c = '-' || c = '.' || c = ':'

/-- Drop leading whitespace. -/
def skipWs (s : Str) : Str := s.dropWhile isWs

/-- Take a maximal run of name characters. -/
def takeName (s : Str) : Str × Str :=
  (s.takeWhile nameChar, s.dropWhile nameChar)

/-- An element tree: tag, attributes in source order, optional inline text
content, child elements. -/
inductive XTree where
  | elem : Str → List (Str × Str) → Option Str → List XTree → XTree

/-- Parse the attribute list of an open tag, stopping before a slash or a
closing angle bracket.  Values are double-quoted and may not contain an
angle bracket or an ampersand. -/
def parseAttrsF : Nat → Str → Option (List (Str × Str) × Str)
  | 0, _ => none
  | fuel+1, s =>
    let s1 := skipWs s
    match s1 with
    | '/' :: _ => some ([], s1)
    | '>' :: _ => some ([], s1)
    | _ =>
      let nm := (takeName s1).1
      let s2 := (takeName s1).2
      if nm = [] then none
      else
        match skipWs s2 with
        | '=' :: s3 =>
          match skipWs s3 with
          | '"' :: s4 =>
            let v := s4.takeWhile (fun c => !(c = '"'))
            match s4.drop v.length with
            | '"' :: s6 =>
              if v.any (fun c => c = '<' || c = '&') then none
              else
                match parseAttrsF fuel s6 with
                | some (attrs, r) => some ((nm, v) :: attrs, r)
                | none => none
            | _ => none
          | _ => none
        | _ => none

mutual

/-- Parse one element starting at an opening angle bracket. -/
def parseTreeF : Nat → Str → Option (XTree × Str)
  | 0, _ => none
  | fuel+1, s =>
    match s with
    | '<' :: s1 =>
      let tag := (takeName s1).1
      let s2 := (takeName s1).2
      if tag = [] then none
      else
        match parseAttrsF (s2.length + 1) s2 with
        | none => none
        | some (attrs, s3) =>
          match s3 with
          | '/' :: '>' :: s4 => some (.elem tag attrs none [], s4)
          | '>' :: s4 => parseContentF fuel tag attrs s4
          | _ => none
    | _ => none

/-- Parse the content of an open element up to and including its close tag:
either inline text or a sequence of child elements. -/
def parseContentF : Nat → Str → List (Str × Str) → Str → Option (XTree × Str)
  | 0, _, _, _ => none
  | fuel+1, tag, attrs, s =>
    let t := s.takeWhile (fun c => !(c = '<'))
    let s1 := s.drop t.length
    if occursIn t cdClose || t.any (fun c => c = '&') then none
    else
      match s1 with
      | '<' :: '/' :: s2 =>
        let nm := (takeName s2).1
        let s3 := (takeName s2).2
        if nm = tag then
          match skipWs s3 with
          | '>' :: s4 =>
            if (pyStrip t).isEmpty then some (.elem tag attrs none [], s4)
            else some (.elem tag attrs (some t) [], s4)
          | _ => none
        else none
      | '<' :: _ =>
        if (pyStrip t).isEmpty then
          match parseKidsF fuel tag s1 with
          | some (ks, r) => some (.elem tag attrs none ks, r)
          | none => none
        else none
      | _ => none

/-- Parse a sequence of child elements separated by whitespace, up to and
including the parent's close tag. -/
def parseKidsF : Nat → Str → Str → Option (List XTree × Str)
  | 0, _, _ => none
  | fuel+1, tag, s =>
    match s with
    | '<' :: '/' :: s2 =>
      let nm := (takeName s2).1
      let s3 := (takeName s2).2
      if nm = tag then
        match skipWs s3 with
        | '>' :: s4 => some ([], s4)
        | _ => none
      else none
    | '<' :: _ =>
      match parseTreeF fuel s with
      | none => none
      | some (k, r) =>
        let t := r.takeWhile (fun c => !(c = '<'))
        let r1 := r.drop t.length
        if !(pyStrip t).isEmpty then none
        else
          match parseKidsF fuel tag r1 with
          | some (ks, r2) => some (k :: ks, r2)
          | none => none
    | _ => none

end

/-- Escape character data: ampersand and the angle brackets. -/
def escText : Str → Str
  | [] => []
  | c :: cs =>
    (if c = '&' then "&amp;".data
     else if c = '<' then "&lt;".data
     else if c = '>' then "&gt;".data
     else [c]) ++ escText cs

/-- Escape an attribute value: additionally the double quote. -/
def escAttr : Str → Str
  | [] => []
  | c :: cs =>
    (if c = '&' then "&amp;".data
     else if c = '<' then "&lt;".data
     else if c = '>' then "&gt;".data
     else if c = '"' then "&quot;".data
     else [c]) ++ escAttr cs

/-- Render an attribute list, each attribute preceded by one space, values
double-quoted, in source order. -/
def serAttrs : List (Str × Str) → Str
  | [] => []
  | (n, v) :: rest => ' ' :: (n ++ '=' :: '"' :: (escAttr v ++ '"' :: serAttrs rest))

/-- A run of spaces. -/
def nSpaces (n : Nat) : Str := List.replicate n ' '

/-- Serialize a tree, each element on its own line, children indented one
additional four-space unit, inline text kept on the element's line, empty
elements self-closed.  Every emitted line ends with a line feed. -/
def serTreeF : Nat → Nat → XTree → Str
  | 0, _, _ => []
  | fuel+1, d, .elem tag attrs txt kids =>
    let ind := nSpaces (4 * d)
    let opening := ind ++ '<' :: (tag ++ serAttrs attrs)
    match txt, kids with
    | some t, _ => opening ++ '>' :: (escText t ++ '<' :: '/' :: (tag ++ ['>', '\n']))
    | none, [] => opening ++ ['/', '>', '\n']
    | none, ks =>
      (opening ++ ['>', '\n']) ++
        (ks.map (serTreeF fuel (d + 1))).foldr (· ++ ·) [] ++
        (ind ++ '<' :: '/' :: (tag ++ ['>', '\n']))

/-- The XML declaration emitted by the DOM stage for the UTF-8 target
encoding. -/
def xmlDecl : Str := "<?xml version=\"1.0\" encoding=\"UTF-8\"?>".data

/-- Parse a document: an optional XML declaration, then one root element,
with nothing but whitespace after it. -/
def xmlParse (s : Str) : Option XTree :=
  let s1 := skipWs s
  let s2 :=
    if ("<?xml".data).isPrefixOf s1 then
      match splitFirst s1 ("?>".data) with
      | some (_, r) => some r
      | none => none
    else some s1
  match s2 with
  | none => none
  | some s3 =>
    match parseTreeF (s3.length + 1) (skipWs s3) with
    | none => none
    | some (t, r) => if (pyStrip r).isEmpty then some t else none

/-- The modelled DOM stage: parse, then serialize behind the declaration;
none models the ParseFailure of section 4.2. -/
def specFormat (s : Str) : Option Str :=
  match xmlParse s with
  | none => none
  | some t => some (xmlDecl ++ '\n' :: serTreeF (s.length + 1) 0 t)

/-! ### format_xml_file and the directory loop -/

/-- Modelled from the spec: an xml.etree.ElementTree parse error as the
source's validity check at lines 110-115 of format_xml.py receives it — a
reason and a position, rendered as a human-readable message. -/
inductive PErr where
  | perr : Str → Nat → Nat → PErr
deriving DecidableEq

/-- The human-readable rendering of a parse error (str(e) at line 114 of
format_xml.py). -/
def perrMsg : PErr → Str
  | .perr m l c => m ++ ": line ".data ++ natStr l ++ ", column ".data ++ natStr c

/-- The outcome of format_xml_file on one file: the returned boolean and
the content stored on disk afterwards. -/
structure FileResult where
  ret : Bool
  stored : Str

/-- format_xml_file (lines 99-146 of format_xml.py) on the stored content
of one file.  etParse stands for the ET.fromstring validity check (line
112), fmt for the DOM stage of pretty_print_xml.  Empty or whitespace-only
content is skipped (lines 104-107); invalid XML is skipped (lines 110-115);
a formatter failure is skipped (lines 122-124); content whose strip equals
the original's strip is left alone (lines 127-129); under dry_run nothing
is stored (lines 131-136); otherwise the formatted content is stored
(lines 138-142). -/
def format_xml_file (etParse : Str → Except PErr Unit) (fmt : Str → Option Str)
    (stored : Str) (dry_run : Bool) : FileResult :=
  if (pyStrip stored).isEmpty then ⟨false, stored⟩
  else
    match etParse stored with
    | .error _ => ⟨false, stored⟩
    | .ok _ =>
      match pretty_print_xml fmt stored with
      | none => ⟨false, stored⟩
      | some formatted =>
        if pyStrip formatted = pyStrip stored then ⟨false, stored⟩
        else if dry_run then ⟨true, stored⟩
        else ⟨true, formatted⟩

/-- An advisory message of validate_xml_structure (lines 211-224 of
format_xml.py): a wrong root tag, or the list of missing required
attributes. -/
inductive Warning where
  | badRoot : Str → Warning
  | missingAttrList : List Str → Warning

/-- The required root attributes of addon.xml (line 218 of format_xml.py). -/
def required_attrs : List Str :=
  ["id".data, "name".data, "version".data, "provider-name".data]

/-- The missing-attribute list comprehension at line 219 of format_xml.py. -/
def missingAttrs (attrib : List (Str × Str)) : List Str :=
  required_attrs.filter (fun a => !((attrib.map Prod.fst).contains a))

/-- validate_xml_structure (lines 193-229 of format_xml.py).  etRoot stands
for ET.fromstring returning the root element's tag and attributes.  For a
file named addon.xml the root tag and the required attributes are checked,
producing advisory warnings; the function returns True regardless of the
warnings, and False only when parsing raises. -/
def validate_xml_structure (etRoot : Str → Except PErr (Str × List (Str × Str)))
    (name content : Str) : Bool × List Warning :=
  match etRoot content with
  | .error _ => (false, [])
  | .ok (tag, attrib) =>
    if name = "addon.xml".data then
      (true,
        (if tag = "addon".data then [] else [Warning.badRoot tag]) ++
        (match missingAttrs attrib with
         | [] => []
         | ms => [Warning.missingAttrList ms]))
    else (true, [])

/-- format_directory (lines 232-285 of format_xml.py) over an ordered list
of (file name, stored content) pairs, returning the stored contents
afterwards and the counters (formatted_count, error_count,
validation_errors).  When validation is requested and fails, the file is
skipped — but only outside dry_run (lines 258-263); otherwise
format_xml_file runs and the counters record its boolean (lines 272-275).
Backup creation (lines 266-269) is I/O glue outside the modelled core. -/
def format_directory (etRoot : Str → Except PErr (Str × List (Str × Str)))
    (etParse : Str → Except PErr Unit) (fmt : Str → Option Str)
    (validate dry_run : Bool) :
    List (Str × Str) → List (Str × Str) × (Nat × Nat × Nat)
  | [] => ([], (0, 0, 0))
  | (nm, content) :: files =>
    let vfail := validate && !(validate_xml_structure etRoot nm content).1
    let r := format_directory etRoot etParse fmt validate dry_run files
    let vinc := if vfail then 1 else 0
    if vfail && !dry_run then
      ((nm, content) :: r.1, (r.2.1, r.2.2.1, r.2.2.2 + vinc))
    else
      let fr := format_xml_file etParse fmt content dry_run
      ((nm, fr.stored) :: r.1,
        ((if fr.ret then r.2.1 + 1 else r.2.1),
         (if fr.ret then r.2.2.1 else r.2.2.1 + 1),
         r.2.2.2 + vinc))

/-- The root tag and attributes through the modelled parser, as
ET.fromstring exposes them to validate_xml_structure. -/
def etRootOf (s : Str) : Except PErr (Str × List (Str × Str)) :=
  match xmlParse s with
  | some (XTree.elem tag attrs _ _) => Except.ok (tag, attrs)
  | none => Except.error (PErr.perr "not well-formed (invalid token)".data 1 0)

/-- The validity check of line 112 through the modelled parser. -/
def etParseOf (s : Str) : Except PErr Unit :=
  match xmlParse s with
  | some _ => Except.ok ()
  | none => Except.error (PErr.perr "not well-formed (invalid token)".data 1 0)

-- ===================== theorems =====================

theorem splitFirst_some {s pat a b : Str} (h : splitFirst s pat = some (a, b)) :
    s = a ++ pat ++ b := by
  induction s generalizing a b with
  | nil => simp [splitFirst] at h
  | cons c cs ih =>
    by_cases hp : pat.isPrefixOf (c :: cs)
    · simp only [splitFirst, if_pos hp, Option.some.injEq, Prod.mk.injEq] at h
      obtain ⟨ha, hb⟩ := h
      subst ha
      obtain ⟨t, ht⟩ := List.isPrefixOf_iff_prefix.mp hp
      subst hb
      rw [← ht, List.drop_left]
      simp
    · simp only [splitFirst, if_neg hp] at h
      cases heq : splitFirst cs pat with
      | none => rw [heq] at h; simp at h
      | some ab =>
        obtain ⟨a1, b1⟩ := ab
        rw [heq] at h
        simp only [Option.some.injEq, Prod.mk.injEq] at h
        obtain ⟨ha, hb⟩ := h
        subst ha; subst hb
        have := ih heq
        simp [this]

theorem splitFirst_some_length {s pat a b : Str} (hpat : pat ≠ [])
    (h : splitFirst s pat = some (a, b)) : b.length < s.length := by
  have hs := splitFirst_some h
  have : 0 < pat.length := List.length_pos.mpr hpat
  simp [hs]
  omega

theorem splitFirst_min {s pat a b : Str} (h : splitFirst s pat = some (a, b)) :
    ∀ n, n < a.length → ¬ pat.isPrefixOf (a.drop n ++ pat ++ b) := by
  induction s generalizing a b with
  | nil => simp [splitFirst] at h
  | cons c cs ih =>
    by_cases hp : pat.isPrefixOf (c :: cs)
    · simp only [splitFirst, if_pos hp, Option.some.injEq, Prod.mk.injEq] at h
      obtain ⟨ha, _⟩ := h
      subst ha
      intro n hn
      simp at hn
    · simp only [splitFirst, if_neg hp] at h
      cases heq : splitFirst cs pat with
      | none => rw [heq] at h; simp at h
      | some ab =>
        obtain ⟨a1, b1⟩ := ab
        rw [heq] at h
        simp only [Option.some.injEq, Prod.mk.injEq] at h
        obtain ⟨ha, hb⟩ := h
        subst ha; subst hb
        intro n hn
        match n with
        | 0 =>
          have hs := splitFirst_some heq
          simpa [← hs] using hp
        | n+1 =>
          exact ih heq n (by simpa using hn)

theorem splitFirst_none_not_occurs {s pat : Str} (hpat : pat ≠ [])
    (h : splitFirst s pat = none) : ∀ a b, s ≠ a ++ pat ++ b := by
  induction s with
  | nil =>
    intro a b hab
    apply hpat
    have h2 : a ++ pat ++ b = [] := hab.symm
    rcases List.append_eq_nil.mp h2 with ⟨h3, _⟩
    exact (List.append_eq_nil.mp h3).2
  | cons c cs ih =>
    by_cases hp : pat.isPrefixOf (c :: cs)
    · simp [splitFirst, hp] at h
    · simp only [splitFirst, if_neg hp] at h
      cases heq : splitFirst cs pat with
      | some ab => rw [heq] at h; simp at h
      | none =>
        intro a b hab
        match a, hab with
        | [], hab =>
          apply hp
          rw [List.isPrefixOf_iff_prefix]
          exact ⟨b, by simpa using hab.symm⟩
        | a0 :: a1, hab =>
          simp only [List.cons_append, List.cons.injEq] at hab
          exact ih heq a1 b hab.2

theorem splitFirst_prepend {pat : Str} (A rest : Str)
    (h : ∀ n, n < A.length → ¬ pat.isPrefixOf (A.drop n ++ rest)) :
    splitFirst (A ++ rest) pat =
      (splitFirst rest pat).map (fun x => (A ++ x.1, x.2)) := by
  induction A with
  | nil =>
    cases heq : splitFirst rest pat with
    | none => simp [heq]
    | some ab => simp [heq]
  | cons c cs ih =>
    have h0 : ¬ pat.isPrefixOf (c :: (cs ++ rest)) := by
      have := h 0 (by simp)
      simpa using this
    have hrec := ih (fun n hn => by
      have := h (n + 1) (by simpa using hn)
      simpa using this)
    rw [List.cons_append]
    simp only [splitFirst, if_neg h0, hrec]
    cases heq : splitFirst rest pat with
    | none => simp
    | some ab => simp

theorem splitFirst_self_append {pat : Str} (v : Str) (hpat : pat ≠ []) :
    splitFirst (pat ++ v) pat = some ([], v) := by
  match pat, hpat with
  | p :: ps, _ =>
    have hp : (p :: ps).isPrefixOf ((p :: ps) ++ v) := by
      rw [List.isPrefixOf_iff_prefix]
      exact List.prefix_append _ _
    have hd := List.drop_left (p :: ps) v
    rw [List.cons_append]
    simp only [splitFirst]
    rw [if_pos (by exact hp)]
    simp only [List.cons_append] at hd
    rw [hd]

theorem splitFirst_at_slot {pat : Str} (A v : Str) (hpat : pat ≠ [])
    (h : ∀ n, n < A.length → ¬ pat.isPrefixOf (A.drop n ++ pat ++ v)) :
    splitFirst (A ++ pat ++ v) pat = some (A, v) := by
  rw [List.append_assoc, splitFirst_prepend A (pat ++ v)
    (fun n hn => by simpa using h n hn)]
  rw [splitFirst_self_append v hpat]
  simp

theorem replaceAllF_congr {pat : Str} (hpat : pat ≠ []) :
    ∀ f g s rep, s.length < f → s.length < g →
      replaceAllF f s pat rep = replaceAllF g s pat rep := by
  intro f
  induction f with
  | zero => intro g s rep hf; omega
  | succ f ih =>
    intro g s rep hf hg
    match g, hg with
    | g+1, hg =>
      cases heq : splitFirst s pat with
      | none => simp only [replaceAllF, heq]
      | some ab =>
        obtain ⟨a, b⟩ := ab
        have hb := splitFirst_some_length hpat heq
        simp only [replaceAllF, heq]
        rw [ih g b rep (by omega) (by omega)]

theorem replaceAll_of_none {s pat rep : Str} (h : splitFirst s pat = none) :
    replaceAll s pat rep = s := by
  unfold replaceAll
  by_cases hpat : pat = []
  · simp [hpat]
  · simp [hpat, replaceAllF, h]

theorem replaceAll_step {s pat rep a b : Str} (hpat : pat ≠ [])
    (h : splitFirst s pat = some (a, b)) :
    replaceAll s pat rep = a ++ rep ++ replaceAll b pat rep := by
  have hb := splitFirst_some_length hpat h
  have h1 : replaceAll s pat rep = a ++ rep ++ replaceAllF s.length b pat rep := by
    unfold replaceAll
    simp only [if_neg hpat, replaceAllF, h]
  have h2 : replaceAll b pat rep = replaceAllF s.length b pat rep := by
    unfold replaceAll
    simp only [if_neg hpat]
    exact replaceAllF_congr hpat (b.length + 1) s.length b rep (by omega) (by omega)
  rw [h1, h2]

theorem countOccF_congr {pat : Str} (hpat : pat ≠ []) :
    ∀ f g s, s.length < f → s.length < g →
      countOccF f s pat = countOccF g s pat := by
  intro f
  induction f with
  | zero => intro g s hf; omega
  | succ f ih =>
    intro g s hf hg
    match g, hg with
    | g+1, hg =>
      cases heq : splitFirst s pat with
      | none => simp only [countOccF, heq]
      | some ab =>
        obtain ⟨a, b⟩ := ab
        have hb := splitFirst_some_length hpat heq
        simp only [countOccF, heq]
        rw [ih g b (by omega) (by omega)]

theorem countOcc_of_none {s pat : Str} (h : splitFirst s pat = none) :
    countOcc s pat = 0 := by
  unfold countOcc
  by_cases hpat : pat = []
  · simp [hpat]
  · simp [hpat, countOccF, h]

theorem countOcc_step {s pat a b : Str} (hpat : pat ≠ [])
    (h : splitFirst s pat = some (a, b)) :
    countOcc s pat = countOcc b pat + 1 := by
  have hb := splitFirst_some_length hpat h
  have h1 : countOcc s pat = countOccF s.length b pat + 1 := by
    unfold countOcc
    simp only [if_neg hpat, countOccF, h]
  have h2 : countOcc b pat = countOccF s.length b pat := by
    unfold countOcc
    simp only [if_neg hpat]
    exact countOccF_congr hpat (b.length + 1) s.length b (by omega) (by omega)
  rw [h1, h2]

theorem splitFirst_none_of_countOcc_zero {s pat : Str} (hpat : pat ≠ [])
    (h : countOcc s pat = 0) : splitFirst s pat = none := by
  cases heq : splitFirst s pat with
  | none => rfl
  | some ab =>
    obtain ⟨a, b⟩ := ab
    rw [countOcc_step hpat heq] at h
    omega

theorem prefix_of_append_left {pat s X : Str} (h : pat <+: s ++ X)
    (hs : pat.length ≤ s.length) : pat <+: s := by
  have h1 := List.prefix_iff_eq_take.mp h
  rw [List.take_append_of_le_length hs] at h1
  rw [h1]
  exact List.take_prefix _ _

theorem prefix_of_append_split {pat s X : Str} (h : pat <+: s ++ X)
    (hs : s.length ≤ pat.length) :
    s <+: pat ∧ pat.drop s.length <+: X := by
  have h1 := List.prefix_iff_eq_take.mp h
  constructor
  · rw [List.prefix_iff_eq_take]
    rw [h1, List.take_take, min_eq_left hs, List.take_left]
  · rw [h1, List.drop_take, List.drop_left]
    exact List.take_prefix _ _

/-- No occurrence of pat lies (fully) within s. -/
def NoOccWithin (pat s : Str) : Prop := ∀ n, n < s.length → ¬ pat <+: s.drop n

theorem noOccWithin_of_splitFirst_none {pat s : Str} (hpat : pat ≠ [])
    (h : splitFirst s pat = none) : NoOccWithin pat s := by
  intro n hn hp
  obtain ⟨t, ht⟩ := hp
  apply splitFirst_none_not_occurs hpat h (s.take n) t
  conv_lhs => rw [← List.take_append_drop n s]
  rw [← ht, List.append_assoc]

theorem noOccWithin_of_sublist {pat s t : Str} (hinf : s <:+: t)
    (h : NoOccWithin pat t) : NoOccWithin pat s := by
  obtain ⟨u, v, huv⟩ := hinf
  intro n hn hp
  apply h (u.length + n) (by rw [← huv]; simp; omega)
  have hdrop : t.drop (u.length + n) = s.drop n ++ v := by
    rw [← huv, List.append_assoc, List.drop_append ..,
      List.drop_append_of_le_length (by omega)]
  rw [hdrop]
  exact hp.trans (List.prefix_append _ _)

theorem digitChar_digit : ∀ d, isDigitCh (digitChar d) = true := by
  intro d
  match d with
  | 0 | 1 | 2 | 3 | 4 | 5 | 6 | 7 | 8 => rfl
  | n+9 => rfl

theorem digitVal_digitChar {d : Nat} (hd : d < 10) :
    digitVal (digitChar d) = d := by
  interval_cases d <;> decide

theorem digit_facts {c : Char} (h : isDigitCh c = true) :
    c ≠ '_' ∧ c ≠ '<' ∧ c ≠ '>' ∧ isWs c = false := by
  simp [isDigitCh] at h
  rcases h with ((((((((rfl | rfl) | rfl) | rfl) | rfl) | rfl) | rfl) | rfl) | rfl) | rfl <;>
    exact ⟨by decide, by decide, by decide, by decide⟩

theorem natStrAux_digits : ∀ fuel n, ∀ c ∈ natStrAux fuel n, isDigitCh c = true := by
  intro fuel
  induction fuel with
  | zero => intro n c hc; simp [natStrAux] at hc
  | succ fuel ih =>
    intro n c hc
    by_cases hn : n = 0
    · simp [natStrAux, hn] at hc
    · simp only [natStrAux, if_neg hn, List.mem_append, List.mem_singleton] at hc
      rcases hc with hc | rfl
      · exact ih _ _ hc
      · exact digitChar_digit _

theorem natStr_digits : ∀ n, ∀ c ∈ natStr n, isDigitCh c = true := by
  intro n c hc
  unfold natStr at hc
  by_cases hn : n = 0
  · simp [hn] at hc
    subst hc
    decide
  · rw [if_neg hn] at hc
    exact natStrAux_digits _ _ _ hc

theorem natStr_ne_nil (n : Nat) : natStr n ≠ [] := by
  unfold natStr
  by_cases hn : n = 0
  · simp [hn]
  · rw [if_neg hn]
    simp only [natStrAux, if_neg hn]
    simp

theorem valD_append_singleton (l : Str) (c : Char) :
    valD (l ++ [c]) = valD l * 10 + digitVal c := by
  unfold valD
  rw [List.foldl_append]
  rfl

theorem natStrAux_val : ∀ fuel n, n < fuel → valD (natStrAux fuel n) = n := by
  intro fuel
  induction fuel with
  | zero => intro n h; omega
  | succ fuel ih =>
    intro n h
    by_cases hn : n = 0
    · simp [natStrAux, hn, valD]
    · have hdiv : n / 10 < n := Nat.div_lt_self (by omega) (by norm_num)
      simp only [natStrAux, if_neg hn]
      rw [valD_append_singleton, ih (n / 10) (by omega),
        digitVal_digitChar (Nat.mod_lt n (by norm_num))]
      omega

theorem natStr_val (n : Nat) : valD (natStr n) = n := by
  unfold natStr
  by_cases hn : n = 0
  · simp [hn]; decide
  · rw [if_neg hn]
    exact natStrAux_val _ _ (by omega)

theorem natStr_inj {m n : Nat} (h : natStr m = natStr n) : m = n := by
  have h1 := natStr_val m
  rw [h, natStr_val] at h1
  omega

theorem sep_prefix_eq {d1 d2 r1 r2 : Str}
    (h : d1 ++ '_' :: r1 <+: d2 ++ '_' :: r2)
    (h1 : ∀ c ∈ d1, c ≠ '_') (h2 : ∀ c ∈ d2, c ≠ '_') :
    d1 = d2 ∧ r1 <+: r2 := by
  induction d1 generalizing d2 with
  | nil =>
    match d2 with
    | [] =>
      simp only [List.nil_append] at h
      exact ⟨rfl, (List.cons_prefix_cons.mp h).2⟩
    | c :: cs =>
      simp only [List.nil_append, List.cons_append] at h
      have := (List.cons_prefix_cons.mp h).1
      exact absurd this.symm (h2 c (by simp))
  | cons c cs ih =>
    match d2 with
    | [] =>
      simp only [List.cons_append, List.nil_append] at h
      have := (List.cons_prefix_cons.mp h).1
      exact absurd this (h1 c (by simp))
    | b :: bs =>
      simp only [List.cons_append] at h
      obtain ⟨hcb, htail⟩ := List.cons_prefix_cons.mp h
      obtain ⟨he, hr⟩ := ih htail (fun x hx => h1 x (by simp [hx])) (fun x hx => h2 x (by simp [hx]))
      exact ⟨by rw [hcb, he], hr⟩

theorem placeholder_length (i : Nat) :
    (placeholder i).length = 22 + (natStr i).length := by
  simp [placeholder, sentinel]
  omega

theorem placeholder_take_sentinel (i : Nat) :
    (placeholder i).take 20 = sentinel := by
  unfold placeholder
  rw [show (20 : Nat) = sentinel.length by decide]
  rw [List.append_assoc, List.take_left]

theorem placeholder_prefix_inj {i j : Nat} {rest : Str}
    (h : placeholder i <+: placeholder j ++ rest) : i = j := by
  unfold placeholder at h
  simp only [List.append_assoc] at h
  rw [List.prefix_append_right_inj] at h
  have hsep : natStr i ++ '_' :: ('_' :: []) <+: natStr j ++ '_' :: ('_' :: rest) := by
    exact h
  have hd1 : ∀ c ∈ natStr i, c ≠ '_' := fun c hc => (digit_facts (natStr_digits i c hc)).1
  have hd2 : ∀ c ∈ natStr j, c ≠ '_' := fun c hc => (digit_facts (natStr_digits j c hc)).1
  exact natStr_inj (sep_prefix_eq hsep hd1 hd2).1

theorem sentinel_border : ∀ k, 0 < k → k < 20 → k ≠ 19 →
    sentinel.drop k ≠ sentinel.take (20 - k) := by
  intro k h1 h2 h3
  interval_cases k <;> first | decide | omega

theorem period_head {H Q : Str} {k : Nat} (hk : k ≤ H.length)
    (hper : (H ++ Q).drop k = (H ++ Q).take ((H ++ Q).length - k)) :
    H.drop k = H.take (H.length - k) := by
  have e1 : ((H ++ Q).drop k).take (H.length - k) = H.drop k := by
    rw [List.drop_append_of_le_length hk,
      List.take_append_of_le_length (by rw [List.length_drop]),
      List.take_of_length_le (by rw [List.length_drop])]
  have e2 : ((H ++ Q).take ((H ++ Q).length - k)).take (H.length - k) = H.take (H.length - k) := by
    rw [List.take_take, min_eq_left (by simp; omega),
      List.take_append_of_le_length (by omega)]
  rw [← e1, hper, e2]

theorem cdOpen_border : ∀ k, 0 < k → k < 9 → cdOpen.drop k ≠ cdOpen.take (9 - k) := by
  intro k h1 h2
  interval_cases k <;> decide

/-- A string beginning with the CDATA opening delimiter has no nontrivial
period shorter than the delimiter: overlapping self-occurrences are
impossible within the first nine characters. -/
theorem open_period {Q : Str} {k : Nat} (h1 : 0 < k) (h2 : k < 9)
    (hper : (cdOpen ++ Q).drop k = (cdOpen ++ Q).take ((cdOpen ++ Q).length - k)) :
    False := by
  have h9 : cdOpen.length = 9 := by decide
  have := period_head (H := cdOpen) (Q := Q) (k := k) (by omega) hper
  rw [h9] at this
  exact cdOpen_border k h1 h2 this

/-- A placeholder token has no nontrivial period shorter than the
sentinel: an overlapping self-occurrence must shift by at least the
sentinel length. -/
theorem placeholder_period {i : Nat} {Q : Str} {k : Nat} (h1 : 0 < k) (h2 : k < 20)
    (hper : (placeholder i ++ Q).drop k =
      (placeholder i ++ Q).take ((placeholder i ++ Q).length - k)) :
    False := by
  have hs20 : sentinel.length = 20 := by decide
  have hassoc : placeholder i ++ Q = sentinel ++ (natStr i ++ ['_', '_'] ++ Q) := by
    unfold placeholder
    simp [List.append_assoc]
  rw [hassoc] at hper
  have hsent := period_head (H := sentinel) (k := k) (by omega) hper
  rw [hs20] at hsent
  by_cases h19 : k = 19
  · subst h19
    have hL : (sentinel ++ (natStr i ++ ['_', '_'] ++ Q)).drop 19 =
        '_' :: (natStr i ++ ['_', '_'] ++ Q) := by
      rw [List.drop_append_of_le_length (by omega)]
      rw [show sentinel.drop 19 = ['_'] from by decide]
      rfl
    obtain ⟨d, ds, hds⟩ : ∃ d ds, natStr i = d :: ds := by
      cases hnat : natStr i with
      | nil => exact absurd hnat (natStr_ne_nil i)
      | cons d ds => exact ⟨d, ds, rfl⟩
    have hd : isDigitCh d = true := natStr_digits i d (by rw [hds]; simp)
    have hS : sentinel ++ (natStr i ++ ['_', '_'] ++ Q) =
        '_' :: '_' :: ("CDATA_PLACEHOLDER_".data ++ (natStr i ++ ['_', '_'] ++ Q)) := by
      rw [show sentinel = '_' :: '_' :: "CDATA_PLACEHOLDER_".data from by decide]
      rfl
    rw [hL] at hper
    conv at hper => rhs; rw [hS]
    have hlen : ('_' :: '_' :: ("CDATA_PLACEHOLDER_".data ++ (natStr i ++ ['_', '_'] ++ Q))).length - 19 =
        (natStr i ++ ['_', '_'] ++ Q).length + 1 := by
      simp only [List.length_cons, List.length_append,
        show ("CDATA_PLACEHOLDER_".data).length = 18 from by decide]
      omega
    rw [hlen] at hper
    rw [List.take_succ_cons] at hper
    simp only [List.cons.injEq] at hper
    obtain ⟨-, hper2⟩ := hper
    have hlen2 : (natStr i ++ ['_', '_'] ++ Q).length = (ds ++ ['_', '_'] ++ Q).length + 1 := by
      rw [hds]
      simp
    rw [hlen2, List.take_succ_cons, hds] at hper2
    simp only [List.cons_append, List.cons.injEq] at hper2
    exact absurd hper2.1 (digit_facts hd).1
  · exact sentinel_border k h1 h2 h19 hsent

theorem noOccWithin_append {pat X Y : Str}
    (hX : ∀ n, n < X.length → ¬ pat <+: X.drop n ++ Y)
    (hY : NoOccWithin pat Y) : NoOccWithin pat (X ++ Y) := by
  intro n hn hp
  by_cases hnX : n < X.length
  · rw [List.drop_append_of_le_length (by omega)] at hp
    exact hX n hnX hp
  · push_neg at hnX
    have hn2 : n = X.length + (n - X.length) := by omega
    rw [hn2, List.drop_append ..] at hp
    simp only [List.length_append] at hn
    exact hY (n - X.length) (by omega) hp

theorem not_prefix_cons_head {l1 l2 : Str} {b : Char}
    (h1 : l1.head? ≠ some b) (h2 : l1 ≠ []) : ¬ l1 <+: (b :: l2) := by
  match l1, h2 with
  | a :: t, _ =>
    intro hp
    exact h1 (by rw [(List.cons_prefix_cons.mp hp).1]; rfl)

theorem cdOpen_drop_head_ne : ∀ u, 0 < u → u < 9 →
    (cdOpen.drop u).head? ≠ some '_' := by
  intro u h1 h2
  interval_cases u <;> decide

theorem cdOpen_length : cdOpen.length = 9 := by decide

theorem sentinel_chars : ∀ c ∈ sentinel,
    c ≠ '<' ∧ c ≠ '>' ∧ isWs c = false := by decide

theorem placeholder_chars {i : Nat} {c : Char} (hc : c ∈ placeholder i) :
    c ≠ '<' ∧ c ≠ '>' ∧ isWs c = false := by
  unfold placeholder at hc
  simp only [List.mem_append] at hc
  rcases hc with (hc | hc) | hc
  · exact sentinel_chars c hc
  · have := digit_facts (natStr_digits _ _ hc)
    exact ⟨this.2.1, this.2.2.1, this.2.2.2⟩
  · simp at hc
    subst hc
    exact ⟨by decide, by decide, by decide⟩

theorem placeholder_cons (i : Nat) :
    ∃ t, placeholder i = '_' :: t := by
  refine ⟨"_CDATA_PLACEHOLDER_".data ++ natStr i ++ ['_', '_'], ?_⟩
  unfold placeholder
  rw [show sentinel = '_' :: "_CDATA_PLACEHOLDER_".data from by decide]
  rfl

/-- Central occurrence lemma: if the pattern begins with a head H that has
no short period, H does not occur inside X, and the string has the
pattern planted right after X, then the leftmost occurrence of the
pattern is exactly the planted one. -/
theorem splitFirst_slot {pat X R H : Str} (hpat : pat ≠ [])
    (hH : H <+: pat)
    (hper : ∀ k, 0 < k → k < H.length →
      pat.drop k ≠ pat.take (pat.length - k))
    (hX : NoOccWithin H X) :
    splitFirst (X ++ pat ++ R) pat = some (X, R) := by
  cases heq : splitFirst (X ++ pat ++ R) pat with
  | none =>
    exact absurd rfl (splitFirst_none_not_occurs hpat heq X R)
  | some ab =>
    obtain ⟨a, b⟩ := ab
    have hsab : X ++ pat ++ R = a ++ pat ++ b := splitFirst_some heq
    have hdropX : (X ++ pat ++ R).drop X.length = pat ++ R := by
      rw [List.drop_append_of_le_length (by simp), List.drop_left]
    have hdropa : (X ++ pat ++ R).drop a.length = pat ++ b := by
      rw [hsab, List.drop_append_of_le_length (by simp), List.drop_left]
    rcases lt_trichotomy a.length X.length with hlt | hEq | hgt
    · exfalso
      set k := X.length - a.length with hk
      have hk1 : 0 < k := by omega
      by_cases hkp : pat.length ≤ k
      · -- the found occurrence lies entirely inside X
        have haux : X.drop a.length ++ (pat ++ R) = pat ++ b := by
          rw [← hdropa]
          conv_rhs => rw [List.append_assoc]
          rw [List.drop_append_of_le_length (by omega)]
        have h1 : pat <+: X.drop a.length ++ (pat ++ R) := by
          rw [haux]
          exact List.prefix_append pat b
        have h2 : pat <+: X.drop a.length :=
          prefix_of_append_left h1 (by rw [List.length_drop]; omega)
        exact hX a.length (by omega) (hH.trans h2)
      · push_neg at hkp
        -- overlapping earlier occurrence: derive a period of pat
        have e1 : pat ++ R = pat.drop k ++ b := by
          have e2 : (X ++ pat ++ R).drop X.length =
              ((X ++ pat ++ R).drop a.length).drop k := by
            rw [List.drop_drop]
            congr 1
            omega
          rw [hdropX, hdropa] at e2
          rw [e2, List.drop_append_of_le_length (by omega)]
        have hperiod : pat.drop k = pat.take (pat.length - k) := by
          have t1 : (pat.drop k ++ b).take (pat.length - k) = pat.drop k := by
            rw [List.take_append_of_le_length (by rw [List.length_drop]),
              List.take_of_length_le (by rw [List.length_drop])]
          have t2 : (pat ++ R).take (pat.length - k) = pat.take (pat.length - k) := by
            rw [List.take_append_of_le_length (by omega)]
          rw [← t1, ← e1, t2]
        by_cases hkH : k < H.length
        · exact hper k hk1 hkH hperiod
        · push_neg at hkH
          -- H sits inside X at position a.length
          have hXa : X = a ++ pat.take k := by
            have : X = (X ++ pat ++ R).take X.length := by
              rw [List.take_append_of_le_length (by simp), List.take_left]
            rw [hsab] at this
            rw [this, List.append_assoc,
              show X.length = a.length + k by omega, List.take_append ..,
              List.take_append_of_le_length (by omega)]
          have hXd : X.drop a.length = pat.take k := by
            rw [hXa, List.drop_left]
          have hHt : H <+: pat.take k := by
            have h3 : (pat.take k).take H.length = H := by
              rw [List.take_take, min_eq_left hkH,
                ← List.prefix_iff_eq_take.mp hH]
            rw [← h3]
            exact List.take_prefix _ _
          apply hX a.length (by omega)
          rw [hXd]
          exact hHt
    · -- the found occurrence is the planted one
      have h1 : X ++ (pat ++ R) = a ++ (pat ++ b) := by
        simpa [List.append_assoc] using hsab
      obtain ⟨hXa, h2⟩ := List.append_inj h1 hEq.symm
      have hRb : R = b := List.append_cancel_left h2
      rw [hXa, hRb]
    · exfalso
      have hmin := splitFirst_min heq X.length hgt
      apply hmin
      have h1 : a.drop X.length ++ pat ++ b = pat ++ R := by
        rw [← hdropX, hsab, List.drop_append_of_le_length (by simp; omega),
          List.drop_append_of_le_length (by omega)]
      rw [h1, List.isPrefixOf_iff_prefix]
      exact List.prefix_append pat R

/-- Replacement at a planted slot: when the pattern occurs exactly once,
namely at the slot, replacing it yields the obvious result and the suffix
is pattern-free. -/
theorem replaceAll_slot {pat rep X R H : Str} (hpat : pat ≠ [])
    (hH : H <+: pat)
    (hper : ∀ k, 0 < k → k < H.length →
      pat.drop k ≠ pat.take (pat.length - k))
    (hX : NoOccWithin H X)
    (hone : countOcc (X ++ pat ++ R) pat = 1) :
    replaceAll (X ++ pat ++ R) pat rep = X ++ rep ++ R := by
  have hsf := splitFirst_slot (R := R) hpat hH hper hX
  have hcR : countOcc R pat = 0 := by
    have := countOcc_step hpat hsf
    omega
  have hnone := splitFirst_none_of_countOcc_zero hpat hcR
  rw [replaceAll_step hpat hsf, replaceAll_of_none hnone]

theorem sentinel_drop_head_ne : ∀ u, 0 < u → u < 20 →
    (sentinel.drop u).head? ≠ some '<' := by
  intro u h1 h2
  interval_cases u <;> decide

theorem sentinel_length : sentinel.length = 20 := by decide

theorem cdClose_border : ∀ k, 0 < k → k < 3 → cdClose.drop k ≠ cdClose.take (3 - k) := by
  intro k h1 h2
  interval_cases k <;> decide

theorem cdClose_length : cdClose.length = 3 := by decide

/-- No occurrence of the CDATA opening delimiter lies within a text built
of opening-delimiter-free gaps alternating with placeholder tokens. -/
theorem noOcc_open_pre : ∀ (pre : List (Str × Str)) (g : Str),
    (∀ gp ∈ pre, NoOccWithin cdOpen gp.1 ∧ ∃ j, gp.2 = placeholder j) →
    NoOccWithin cdOpen g →
    NoOccWithin cdOpen (flatSlots pre ++ g) := by
  intro pre
  induction pre with
  | nil =>
    intro g hpre hg
    simpa [flatSlots] using hg
  | cons gp rest ih =>
    intro g hpre hg
    obtain ⟨g0, slot⟩ := gp
    obtain ⟨hg0, j, hj⟩ := hpre (g0, slot) (by simp)
    dsimp only at hg0 hj
    subst hj
    have hrest := ih g (fun x hx => hpre x (by simp [hx])) hg
    have hshape : flatSlots ((g0, placeholder j) :: rest) ++ g =
        g0 ++ (placeholder j ++ (flatSlots rest ++ g)) := by
      simp [flatSlots, List.append_assoc]
    rw [hshape]
    apply noOccWithin_append
    · -- occurrences starting in the gap g0
      intro n hn hp
      by_cases hfit : n + 9 ≤ g0.length
      · exact hg0 n hn (prefix_of_append_left hp (by rw [List.length_drop, cdOpen_length]; omega))
      · have hsplit := prefix_of_append_split hp (by rw [List.length_drop, cdOpen_length]; omega)
        obtain ⟨t, ht⟩ := placeholder_cons j
        set u := g0.length - n with hu
        have h2 := hsplit.2
        rw [List.length_drop] at h2
        rw [show placeholder j ++ (flatSlots rest ++ g) = '_' :: (t ++ (flatSlots rest ++ g)) by rw [ht]; rfl] at h2
        refine not_prefix_cons_head ?_ ?_ h2
        · exact cdOpen_drop_head_ne u (by omega) (by omega)
        · intro hcon
          have := congrArg List.length hcon
          rw [List.length_drop, cdOpen_length] at this
          simp at this
          omega
    · -- occurrences starting in the placeholder or beyond
      apply noOccWithin_append
      · intro n hn hp
        obtain ⟨c, t, hct⟩ := List.exists_cons_of_ne_nil
          (show (placeholder j).drop n ≠ [] by
            intro hcon
            have := congrArg List.length hcon
            rw [List.length_drop] at this
            simp at this
            omega)
        have hcmem : c ∈ placeholder j := List.mem_of_mem_drop (by rw [hct]; simp)
        rw [hct] at hp
        rw [show (c :: t) ++ (flatSlots rest ++ g) = c :: (t ++ (flatSlots rest ++ g)) from rfl] at hp
        rw [show cdOpen = '<' :: "![CDATA[".data from by decide] at hp
        exact (placeholder_chars hcmem).1 ((List.cons_prefix_cons.mp hp).1).symm
      · exact hrest

/-- No occurrence of the sentinel lies within a text built of
sentinel-free gaps alternating with sentinel-free CDATA sections. -/
theorem noOcc_sent_pre : ∀ (pre : List (Str × Str)) (v : Str),
    (∀ vm ∈ pre, NoOccWithin sentinel vm.1 ∧
      (∃ c, vm.2 = cdOpen ++ c ++ cdClose) ∧ NoOccWithin sentinel vm.2) →
    NoOccWithin sentinel v →
    NoOccWithin sentinel (flatSlots pre ++ v) := by
  intro pre
  induction pre with
  | nil =>
    intro v hpre hv
    simpa [flatSlots] using hv
  | cons vm rest ih =>
    intro v hpre hv
    obtain ⟨v0, m⟩ := vm
    obtain ⟨hv0, ⟨c, hc⟩, hm⟩ := hpre (v0, m) (by simp)
    dsimp only at hv0 hc hm
    have hrest := ih v (fun x hx => hpre x (by simp [hx])) hv
    have hshape : flatSlots ((v0, m) :: rest) ++ v =
        v0 ++ (m ++ (flatSlots rest ++ v)) := by
      simp [flatSlots, List.append_assoc]
    rw [hshape]
    apply noOccWithin_append
    · -- occurrences starting in the gap v0
      intro n hn hp
      by_cases hfit : n + 20 ≤ v0.length
      · exact hv0 n hn (prefix_of_append_left hp (by rw [List.length_drop, sentinel_length]; omega))
      · have hsplit := prefix_of_append_split hp (by rw [List.length_drop, sentinel_length]; omega)
        set u := v0.length - n with hu
        have h2 := hsplit.2
        rw [List.length_drop] at h2
        have hmh : ∃ T, m ++ (flatSlots rest ++ v) = '<' :: T := by
          refine ⟨"![CDATA[".data ++ c ++ cdClose ++ (flatSlots rest ++ v), ?_⟩
          rw [hc, show cdOpen = '<' :: "![CDATA[".data from by decide]
          simp [List.append_assoc]
        obtain ⟨T, hT⟩ := hmh
        rw [hT] at h2
        refine not_prefix_cons_head ?_ ?_ h2
        · exact sentinel_drop_head_ne u (by omega) (by omega)
        · intro hcon
          have := congrArg List.length hcon
          rw [List.length_drop, sentinel_length] at this
          simp at this
          omega
    · -- occurrences starting in the section or beyond
      apply noOccWithin_append
      · intro n hn hp
        by_cases hfit : n + 20 ≤ m.length
        · exact hm n hn (prefix_of_append_left hp (by rw [List.length_drop, sentinel_length]; omega))
        · have hsplit := prefix_of_append_split hp (by rw [List.length_drop, sentinel_length]; omega)
          have h1 := hsplit.1
          -- the tail of the section is a prefix of the sentinel, yet it ends in a bracket
          have hm2 : m = (cdOpen ++ c ++ [']', ']']) ++ ['>'] := by
            rw [hc, show cdClose = [']', ']'] ++ ['>'] from by decide]
            simp [List.append_assoc]
          have hlenm : m.length = (cdOpen ++ c ++ [']', ']']).length + 1 := by
            rw [hm2]
            simp
            omega
          have hgt : '>' ∈ m.drop n := by
            rw [hm2, List.drop_append_of_le_length (by omega)]
            simp
          have hns : '>' ∉ sentinel := by decide
          exact hns (h1.subset hgt)
      · exact hrest

theorem noOccWithin_of_min {s pat a b : Str} (h : splitFirst s pat = some (a, b)) :
    NoOccWithin pat a := by
  intro n hn hp
  apply splitFirst_min h n hn
  rw [List.isPrefixOf_iff_prefix, List.append_assoc]
  exact hp.trans (List.prefix_append _ _)

theorem flatSlots_append (l1 l2 : List (Str × Str)) :
    flatSlots (l1 ++ l2) = flatSlots l1 ++ flatSlots l2 := by
  induction l1 with
  | nil => simp [flatSlots]
  | cons gm rest ih =>
    obtain ⟨g, m⟩ := gm
    simp [flatSlots, ih, List.append_assoc]

theorem flatSlots_infix : ∀ (pairs : List (Str × Str)) (last : Str), ∀ gm ∈ pairs,
    gm.1 <:+: (flatSlots pairs ++ last) ∧ gm.2 <:+: (flatSlots pairs ++ last) := by
  intro pairs
  induction pairs with
  | nil => intro last gm h; simp at h
  | cons gm0 rest ih =>
    intro last gm hmem
    obtain ⟨g0, m0⟩ := gm0
    rcases List.mem_cons.mp hmem with rfl | hmem2
    · constructor
      · exact ⟨[], m0 ++ (flatSlots rest ++ last), by simp [flatSlots, List.append_assoc]⟩
      · exact ⟨g0, flatSlots rest ++ last, by simp [flatSlots, List.append_assoc]⟩
    · have := ih last gm hmem2
      have hext : (flatSlots rest ++ last) <:+: (flatSlots ((g0, m0) :: rest) ++ last) := by
        exact ⟨g0 ++ m0, [], by simp [flatSlots, List.append_assoc]⟩
      exact ⟨this.1.trans hext, this.2.trans hext⟩

theorem cdOpen_ne_nil : cdOpen ≠ [] := by decide

theorem cdClose_ne_nil : cdClose ≠ [] := by decide

theorem cdataScanF_congr :
    ∀ f g s, s.length < f → s.length < g → cdataScanF f s = cdataScanF g s := by
  intro f
  induction f with
  | zero => intro g s hf; omega
  | succ f ih =>
    intro g s hf hg
    match g, hg with
    | g+1, hg =>
      cases h1 : splitFirst s cdOpen with
      | none => simp only [cdataScanF, h1]
      | some gr =>
        obtain ⟨g0, rest⟩ := gr
        have hr := splitFirst_some_length cdOpen_ne_nil h1
        cases h2 : splitFirst rest cdClose with
        | none => simp only [cdataScanF, h1, h2]
        | some cr =>
          obtain ⟨c, rest2⟩ := cr
          have hr2 := splitFirst_some_length cdClose_ne_nil h2
          simp only [cdataScanF, h1, h2]
          rw [ih g rest2 (by omega) (by omega)]

theorem cdataScan_none1 {s : Str} (h : splitFirst s cdOpen = none) :
    cdataScan s = ([], s) := by
  unfold cdataScan
  simp only [cdataScanF, h]

theorem cdataScan_none2 {s g rest : Str} (h1 : splitFirst s cdOpen = some (g, rest))
    (h2 : splitFirst rest cdClose = none) : cdataScan s = ([], s) := by
  unfold cdataScan
  simp only [cdataScanF, h1, h2]

theorem cdataScan_step {s g c rest rest2 : Str}
    (h1 : splitFirst s cdOpen = some (g, rest))
    (h2 : splitFirst rest cdClose = some (c, rest2)) :
    cdataScan s =
      ((g, cdOpen ++ c ++ cdClose) :: (cdataScan rest2).1, (cdataScan rest2).2) := by
  have hr := splitFirst_some_length cdOpen_ne_nil h1
  have hr2 := splitFirst_some_length cdClose_ne_nil h2
  conv_lhs => rw [show cdataScan s = cdataScanF (s.length + 1) s from rfl]
  rw [show cdataScanF (s.length + 1) s =
    ((g, cdOpen ++ c ++ cdClose) :: (cdataScanF s.length rest2).1,
      (cdataScanF s.length rest2).2) from by simp only [cdataScanF, h1, h2]]
  rw [cdataScanF_congr s.length (rest2.length + 1) rest2 (by omega) (by omega)]
  rfl

theorem cdataMatchesF_congr :
    ∀ f g s, s.length < f → s.length < g → cdataMatchesF f s = cdataMatchesF g s := by
  intro f
  induction f with
  | zero => intro g s hf; omega
  | succ f ih =>
    intro g s hf hg
    match g, hg with
    | g+1, hg =>
      cases h1 : splitFirst s cdOpen with
      | none => simp only [cdataMatchesF, h1]
      | some gr =>
        obtain ⟨g0, rest⟩ := gr
        have hr := splitFirst_some_length cdOpen_ne_nil h1
        cases h2 : splitFirst rest cdClose with
        | none => simp only [cdataMatchesF, h1, h2]
        | some cr =>
          obtain ⟨c, rest2⟩ := cr
          have hr2 := splitFirst_some_length cdClose_ne_nil h2
          simp only [cdataMatchesF, h1, h2]
          rw [ih g rest2 (by omega) (by omega)]

theorem cdataMatches_none1 {s : Str} (h : splitFirst s cdOpen = none) :
    cdataMatches s = [] := by
  unfold cdataMatches
  simp only [cdataMatchesF, h]

theorem cdataMatches_none2 {s g rest : Str} (h1 : splitFirst s cdOpen = some (g, rest))
    (h2 : splitFirst rest cdClose = none) : cdataMatches s = [] := by
  unfold cdataMatches
  simp only [cdataMatchesF, h1, h2]

theorem cdataMatches_step {s g c rest rest2 : Str}
    (h1 : splitFirst s cdOpen = some (g, rest))
    (h2 : splitFirst rest cdClose = some (c, rest2)) :
    cdataMatches s = (cdOpen ++ c ++ cdClose) :: cdataMatches rest2 := by
  have hr := splitFirst_some_length cdOpen_ne_nil h1
  have hr2 := splitFirst_some_length cdClose_ne_nil h2
  conv_lhs => rw [show cdataMatches s = cdataMatchesF (s.length + 1) s from rfl]
  rw [show cdataMatchesF (s.length + 1) s =
    (cdOpen ++ c ++ cdClose) :: cdataMatchesF s.length rest2 from by
      simp only [cdataMatchesF, h1, h2]]
  rw [cdataMatchesF_congr s.length (rest2.length + 1) rest2 (by omega) (by omega)]
  rfl

/-- The scanner decomposition: the scanned pairs and final remainder
reassemble to the input; each gap is free of the opening delimiter; each
match is a delimited section with close-free content (the non-greedy
minimal close, so adjacent sections are never merged); the remainder
contains no complete section; and the match-text list agrees with the
finditer list. -/
theorem cdataScan_spec : ∀ n, ∀ s : Str, s.length ≤ n →
    (flatSlots (cdataScan s).1 ++ (cdataScan s).2 = s) ∧
    (∀ gm ∈ (cdataScan s).1, NoOccWithin cdOpen gm.1 ∧
      ∃ c, gm.2 = cdOpen ++ c ++ cdClose ∧ NoOccWithin cdClose c) ∧
    (¬ ∃ a c b, (cdataScan s).2 = a ++ cdOpen ++ c ++ cdClose ++ b) ∧
    (cdataMatches s = (cdataScan s).1.map Prod.snd) := by
  intro n
  induction n with
  | zero =>
    intro s hs
    have hnil : s = [] := List.eq_nil_of_length_eq_zero (by omega)
    subst hnil
    have h1 : splitFirst ([] : Str) cdOpen = none := rfl
    rw [cdataScan_none1 h1, cdataMatches_none1 h1]
    refine ⟨rfl, by simp, ?_, by simp⟩
    rintro ⟨a, c, b, hab⟩
    have := congrArg List.length hab
    simp [cdOpen_length, cdClose_length] at this
    omega
  | succ n ih =>
    intro s hs
    cases h1 : splitFirst s cdOpen with
    | none =>
      rw [cdataScan_none1 h1, cdataMatches_none1 h1]
      refine ⟨rfl, by simp, ?_, by simp⟩
      rintro ⟨a, c, b, hab⟩
      dsimp only at hab
      exact splitFirst_none_not_occurs cdOpen_ne_nil h1 a (c ++ cdClose ++ b)
        (by rw [hab]; simp [List.append_assoc])
    | some gr =>
      obtain ⟨g, rest⟩ := gr
      have hsg : s = g ++ cdOpen ++ rest := splitFirst_some h1
      cases h2 : splitFirst rest cdClose with
      | none =>
        rw [cdataScan_none2 h1 h2, cdataMatches_none2 h1 h2]
        refine ⟨rfl, by simp, ?_, by simp⟩
        rintro ⟨a, c, b, hab⟩
        dsimp only at hab
        rcases lt_or_le a.length g.length with hlt | hge
        · -- an opening delimiter would start inside the minimal gap
          apply splitFirst_min h1 a.length hlt
          rw [List.isPrefixOf_iff_prefix]
          have e1 : s.drop a.length = g.drop a.length ++ cdOpen ++ rest := by
            rw [hsg, List.drop_append_of_le_length (by simp; omega),
              List.drop_append_of_le_length (by omega)]
          have e3 : s.drop a.length = cdOpen ++ (c ++ (cdClose ++ b)) := by
            rw [hab]
            simp only [List.append_assoc]
            rw [List.drop_append_of_le_length (le_refl _), List.drop_length]
            rfl
          rw [show g.drop a.length ++ cdOpen ++ rest = cdOpen ++ (c ++ (cdClose ++ b)) from by
            rw [← e1, e3]]
          exact List.prefix_append _ _
        · -- the closing delimiter would occur inside the close-free remainder
          have hnc := noOccWithin_of_splitFirst_none cdClose_ne_nil h2
          have hrest : s.drop (g.length + 9) = rest := by
            rw [hsg]
            have hgl : (g ++ cdOpen).length = g.length + 9 := by
              simp [cdOpen_length]
            rw [← hgl, List.drop_left]
          have hclose : s.drop (a.length + 9 + c.length) = cdClose ++ b := by
            rw [hab]
            have hl : (a ++ cdOpen ++ c).length = a.length + 9 + c.length := by
              simp [cdOpen_length]
              omega
            rw [show a ++ cdOpen ++ c ++ cdClose ++ b =
              (a ++ cdOpen ++ c) ++ (cdClose ++ b) from by simp [List.append_assoc],
              ← hl, List.drop_left]
          have hocc : cdClose <+: rest.drop (a.length + c.length - g.length) := by
            rw [← hrest, List.drop_drop]
            rw [show g.length + 9 + (a.length + c.length - g.length) =
              a.length + 9 + c.length from by omega]
            rw [hclose]
            exact List.prefix_append _ _
          have hlen1 := congrArg List.length hsg
          have hlen2 := congrArg List.length hab
          simp [cdOpen_length, cdClose_length] at hlen1 hlen2
          exact hnc (a.length + c.length - g.length) (by omega) hocc
      | some cr =>
        obtain ⟨c, rest2⟩ := cr
        have hrc : rest = c ++ cdClose ++ rest2 := splitFirst_some h2
        have hr := splitFirst_some_length cdOpen_ne_nil h1
        have hr2 := splitFirst_some_length cdClose_ne_nil h2
        obtain ⟨ihflat, ihitems, ihlast, ihmatch⟩ := ih rest2 (by omega)
        rw [cdataScan_step h1 h2, cdataMatches_step h1 h2]
        refine ⟨?_, ?_, ihlast, ?_⟩
        · show g ++ (cdOpen ++ c ++ cdClose) ++ flatSlots (cdataScan rest2).1 ++
            (cdataScan rest2).2 = s
          rw [hsg, hrc]
          rw [List.append_assoc (g ++ (cdOpen ++ c ++ cdClose)), ihflat]
          simp [List.append_assoc]
        · intro gm hgm
          rcases List.mem_cons.mp hgm with rfl | hgm2
          · exact ⟨noOccWithin_of_min h1, c, rfl, noOccWithin_of_min h2⟩
          · exact ihitems gm hgm2
        · simp [ihmatch]

theorem placeholder_ne_nil (i : Nat) : placeholder i ≠ [] := by
  unfold placeholder
  simp [sentinel]

theorem match_ne_nil {m c : Str} (hc : m = cdOpen ++ c ++ cdClose) : m ≠ [] := by
  rw [hc]
  intro h
  have := congrArg List.length h
  simp [cdOpen_length, cdClose_length] at this

theorem sentinel_prefix_placeholder (i : Nat) : sentinel <+: placeholder i := by
  unfold placeholder
  rw [List.append_assoc]
  exact List.prefix_append _ _

/-- Driving the source's extraction loop over slot-structured text: when
each section text occurs exactly once at each step, every section is
replaced precisely at its own slot, in index order. -/
theorem extractLoop_chain :
    ∀ (pairs : List (Str × Str)) (glast : Str) (i : Nat) (pre : List (Str × Str)),
    (∀ gp ∈ pre, NoOccWithin cdOpen gp.1 ∧ ∃ j, gp.2 = placeholder j) →
    (∀ gm ∈ pairs, NoOccWithin cdOpen gm.1 ∧ ∃ c, gm.2 = cdOpen ++ c ++ cdClose) →
    extractUniqueF (pairs.map Prod.snd) i (flatSlots pre ++ (flatSlots pairs ++ glast)) = true →
    extractLoop (pairs.map Prod.snd) i (flatSlots pre ++ (flatSlots pairs ++ glast)) =
      (flatSlots pre ++ (flatSlots (substP i pairs) ++ glast),
        buildSecs i (pairs.map Prod.snd)) := by
  intro pairs
  induction pairs with
  | nil =>
    intro glast i pre hpre hpairs huniq
    simp [extractLoop, substP, buildSecs]
  | cons gm rest ih =>
    intro glast i pre hpre hpairs huniq
    obtain ⟨g, m⟩ := gm
    obtain ⟨hg, c, hc⟩ := hpairs (g, m) (by simp)
    dsimp only at hg hc
    have hm_ne : m ≠ [] := match_ne_nil hc
    have hshape : flatSlots pre ++ (flatSlots ((g, m) :: rest) ++ glast) =
        (flatSlots pre ++ g) ++ m ++ (flatSlots rest ++ glast) := by
      simp [flatSlots, List.append_assoc]
    simp only [List.map_cons, extractUniqueF, Bool.and_eq_true, decide_eq_true_eq] at huniq
    obtain ⟨hcount, hnext⟩ := huniq
    rw [hshape] at hcount
    have hrepl : replaceAll (flatSlots pre ++ (flatSlots ((g, m) :: rest) ++ glast))
        m (placeholder i) =
        (flatSlots pre ++ g) ++ placeholder i ++ (flatSlots rest ++ glast) := by
      rw [hshape]
      refine replaceAll_slot (H := cdOpen) hm_ne ?_ ?_ ?_ hcount
      · rw [hc, List.append_assoc]
        exact List.prefix_append _ _
      · intro k hk1 hk2 habs
        rw [cdOpen_length] at hk2
        apply open_period (Q := c ++ cdClose) hk1 hk2
        rw [← List.append_assoc, ← hc]
        exact habs
      · exact noOcc_open_pre pre g hpre hg
    have hshape2 : (flatSlots pre ++ g) ++ placeholder i ++ (flatSlots rest ++ glast) =
        flatSlots (pre ++ [(g, placeholder i)]) ++ (flatSlots rest ++ glast) := by
      rw [flatSlots_append]
      simp [flatSlots, List.append_assoc]
    have hpre2 : ∀ gp ∈ pre ++ [(g, placeholder i)],
        NoOccWithin cdOpen gp.1 ∧ ∃ j, gp.2 = placeholder j := by
      intro gp hgp
      rcases List.mem_append.mp hgp with h | h
      · exact hpre gp h
      · simp at h
        subst h
        exact ⟨hg, i, rfl⟩
    have hrest2 : ∀ gm2 ∈ rest, NoOccWithin cdOpen gm2.1 ∧
        ∃ c2, gm2.2 = cdOpen ++ c2 ++ cdClose := by
      intro gm2 hgm2
      exact hpairs gm2 (by simp [hgm2])
    have hnext2 : extractUniqueF (rest.map Prod.snd) (i + 1)
        (flatSlots (pre ++ [(g, placeholder i)]) ++ (flatSlots rest ++ glast)) = true := by
      rw [← hshape2, ← hrepl]
      exact hnext
    have hih := ih glast (i + 1) (pre ++ [(g, placeholder i)]) hpre2 hrest2 hnext2
    simp only [List.map_cons, extractLoop]
    rw [hrepl, hshape2, hih]
    dsimp only
    simp only [Prod.mk.injEq]
    refine ⟨?_, rfl⟩
    rw [flatSlots_append]
    simp [flatSlots, substP, List.append_assoc]

/-- Driving the source's restoration loop over slot-structured text: when
each placeholder occurs exactly once at each step, every placeholder is
replaced by precisely its own section, index for index. -/
theorem restore_chain :
    ∀ (pairs : List (Str × Str)) (vlast : Str) (i : Nat) (pre : List (Str × Str)),
    (∀ vm ∈ pre, NoOccWithin sentinel vm.1 ∧
      (∃ c, vm.2 = cdOpen ++ c ++ cdClose) ∧ NoOccWithin sentinel vm.2) →
    (∀ vm ∈ pairs, NoOccWithin sentinel vm.1 ∧
      (∃ c, vm.2 = cdOpen ++ c ++ cdClose) ∧ NoOccWithin sentinel vm.2) →
    restoreUniqueF (buildSecs i (pairs.map Prod.snd))
      (flatSlots pre ++ (flatSlots (substP i pairs) ++ vlast)) = true →
    restoreCdata (buildSecs i (pairs.map Prod.snd))
      (flatSlots pre ++ (flatSlots (substP i pairs) ++ vlast)) =
      flatSlots pre ++ (flatSlots pairs ++ vlast) := by
  intro pairs
  induction pairs with
  | nil =>
    intro vlast i pre hpre hpairs huniq
    simp [restoreCdata, substP, buildSecs]
  | cons vm rest ih =>
    intro vlast i pre hpre hpairs huniq
    obtain ⟨v, m⟩ := vm
    obtain ⟨hv, ⟨c, hc⟩, hmfree⟩ := hpairs (v, m) (by simp)
    dsimp only at hv hc hmfree
    have hshape : flatSlots pre ++ (flatSlots (substP i ((v, m) :: rest)) ++ vlast) =
        (flatSlots pre ++ v) ++ placeholder i ++ (flatSlots (substP (i + 1) rest) ++ vlast) := by
      simp [substP, flatSlots, List.append_assoc]
    simp only [List.map_cons, buildSecs, restoreUniqueF, Bool.and_eq_true,
      decide_eq_true_eq] at huniq
    obtain ⟨hcount, hnext⟩ := huniq
    rw [hshape] at hcount
    have hrepl : replaceAll (flatSlots pre ++ (flatSlots (substP i ((v, m) :: rest)) ++ vlast))
        (placeholder i) m =
        (flatSlots pre ++ v) ++ m ++ (flatSlots (substP (i + 1) rest) ++ vlast) := by
      rw [hshape]
      refine replaceAll_slot (placeholder_ne_nil i) (sentinel_prefix_placeholder i) ?_ ?_ hcount
      · intro k hk1 hk2 habs
        rw [sentinel_length] at hk2
        apply placeholder_period (i := i) (Q := []) hk1 hk2
        simpa using habs
      · exact noOcc_sent_pre pre v hpre hv
    have hshape2 : (flatSlots pre ++ v) ++ m ++ (flatSlots (substP (i + 1) rest) ++ vlast) =
        flatSlots (pre ++ [(v, m)]) ++ (flatSlots (substP (i + 1) rest) ++ vlast) := by
      rw [flatSlots_append]
      simp [flatSlots, List.append_assoc]
    have hpre2 : ∀ vm2 ∈ pre ++ [(v, m)], NoOccWithin sentinel vm2.1 ∧
        (∃ c2, vm2.2 = cdOpen ++ c2 ++ cdClose) ∧ NoOccWithin sentinel vm2.2 := by
      intro vm2 hvm2
      rcases List.mem_append.mp hvm2 with h | h
      · exact hpre vm2 h
      · simp at h
        subst h
        exact ⟨hv, ⟨c, hc⟩, hmfree⟩
    have hrest2 : ∀ vm2 ∈ rest, NoOccWithin sentinel vm2.1 ∧
        (∃ c2, vm2.2 = cdOpen ++ c2 ++ cdClose) ∧ NoOccWithin sentinel vm2.2 := by
      intro vm2 hvm2
      exact hpairs vm2 (by simp [hvm2])
    have hnext2 : restoreUniqueF (buildSecs (i + 1) (rest.map Prod.snd))
        (flatSlots (pre ++ [(v, m)]) ++ (flatSlots (substP (i + 1) rest) ++ vlast)) = true := by
      rw [← hshape2, ← hrepl]
      exact hnext
    have hih := ih vlast (i + 1) (pre ++ [(v, m)]) hpre2 hrest2 hnext2
    show restoreCdata ((placeholder i, m) :: buildSecs (i + 1) (rest.map Prod.snd)) _ = _
    rw [show restoreCdata ((placeholder i, m) :: buildSecs (i + 1) (rest.map Prod.snd))
        (flatSlots pre ++ (flatSlots (substP i ((v, m) :: rest)) ++ vlast)) =
      restoreCdata (buildSecs (i + 1) (rest.map Prod.snd))
        (replaceAll (flatSlots pre ++ (flatSlots (substP i ((v, m) :: rest)) ++ vlast))
          (placeholder i) m) from rfl]
    rw [hrepl, hshape2, hih]
    rw [flatSlots_append]
    simp [flatSlots, List.append_assoc]

theorem splitFirst_eq_none_of {s pat : Str} (hpat : pat ≠ [])
    (h : NoOccWithin pat s) : splitFirst s pat = none := by
  cases heq : splitFirst s pat with
  | none => rfl
  | some ab =>
    obtain ⟨a, b⟩ := ab
    exfalso
    have hs := splitFirst_some heq
    have hlen : 0 < pat.length := List.length_pos.mpr hpat
    apply h a.length (by rw [hs]; simp; omega)
    rw [hs, List.drop_append_of_le_length (by simp), List.drop_left]
    exact List.prefix_append _ _

theorem extractLoop_sections : ∀ (ms : List Str) (i : Nat) (rough : Str),
    (extractLoop ms i rough).2 = buildSecs i ms := by
  intro ms
  induction ms with
  | nil => intro i rough; rfl
  | cons m rest ih =>
    intro i rough
    simp only [extractLoop, buildSecs]
    rw [ih]

theorem sentinelFree_noOcc {x : Str} (h : sentinelFree x = true) :
    NoOccWithin sentinel x := by
  unfold sentinelFree occursIn at h
  apply noOccWithin_of_splitFirst_none (by decide)
  cases heq : splitFirst x sentinel with
  | none => rfl
  | some ab => rw [heq] at h; simp at h

/-- Under the extraction collision check, the extraction loop replaces
each scanned section exactly at its own slot: the working text is the
scanned decomposition with each section replaced by its own token, and
the section list pairs the i-th section with the token of index i. -/
theorem extractCdata_eq (x : Str)
    (huniq : extractUniqueF (cdataMatches x) 0 x = true) :
    extractCdata x =
      (flatSlots (substP 0 (cdataScan x).1) ++ (cdataScan x).2,
        buildSecs 0 ((cdataScan x).1.map Prod.snd)) := by
  obtain ⟨hflat, hitems, hlast, hmatch⟩ := cdataScan_spec x.length x (le_refl _)
  have hpairs : ∀ gm ∈ (cdataScan x).1,
      NoOccWithin cdOpen gm.1 ∧ ∃ c, gm.2 = cdOpen ++ c ++ cdClose := by
    intro gm hgm
    obtain ⟨h1, c, h2, -⟩ := hitems gm hgm
    exact ⟨h1, c, h2⟩
  have hx : flatSlots [] ++ (flatSlots (cdataScan x).1 ++ (cdataScan x).2) = x := by
    rw [show flatSlots [] = [] from rfl, List.nil_append, hflat]
  rw [hmatch] at huniq
  have hchain := extractLoop_chain (cdataScan x).1 (cdataScan x).2 0 [] (by simp)
    hpairs (by rw [hx]; exact huniq)
  unfold extractCdata
  rw [hmatch]
  calc extractLoop ((cdataScan x).1.map Prod.snd) 0 x
      = extractLoop ((cdataScan x).1.map Prod.snd) 0
        (flatSlots [] ++ (flatSlots (cdataScan x).1 ++ (cdataScan x).2)) := by rw [hx]
    _ = (flatSlots [] ++ (flatSlots (substP 0 (cdataScan x).1) ++ (cdataScan x).2),
        buildSecs 0 ((cdataScan x).1.map Prod.snd)) := hchain
    _ = (flatSlots (substP 0 (cdataScan x).1) ++ (cdataScan x).2,
        buildSecs 0 ((cdataScan x).1.map Prod.snd)) := by
          rw [show flatSlots [] = [] from rfl, List.nil_append]

/-- Under the collision checks, restoring the placeholders reproduces the
original document byte for byte. -/
theorem vault_roundtrip (x : Str)
    (hsf : sentinelFree x = true)
    (hext : extractUniqueF (cdataMatches x) 0 x = true)
    (hres : restoreUniqueF (extractCdata x).2 (extractCdata x).1 = true) :
    restoreCdata (extractCdata x).2 (extractCdata x).1 = x := by
  obtain ⟨hflat, hitems, hlast, hmatch⟩ := cdataScan_spec x.length x (le_refl _)
  have hsent := sentinelFree_noOcc hsf
  have hvm : ∀ vm ∈ (cdataScan x).1, NoOccWithin sentinel vm.1 ∧
      (∃ c, vm.2 = cdOpen ++ c ++ cdClose) ∧ NoOccWithin sentinel vm.2 := by
    intro vm hvm
    obtain ⟨-, c, h2, -⟩ := hitems vm hvm
    have hinf := flatSlots_infix (cdataScan x).1 (cdataScan x).2 vm hvm
    rw [hflat] at hinf
    exact ⟨noOccWithin_of_sublist hinf.1 hsent, ⟨c, h2⟩,
      noOccWithin_of_sublist hinf.2 hsent⟩
  have hlastfree : NoOccWithin sentinel (cdataScan x).2 := by
    apply noOccWithin_of_sublist ?_ hsent
    exact ⟨flatSlots (cdataScan x).1, [], by rw [List.append_nil, hflat]⟩
  rw [extractCdata_eq x hext] at hres ⊢
  dsimp only at hres ⊢
  have hchain := restore_chain (cdataScan x).1 (cdataScan x).2 0 [] (by simp) hvm
    (by exact hres)
  calc restoreCdata (buildSecs 0 ((cdataScan x).1.map Prod.snd))
          (flatSlots (substP 0 (cdataScan x).1) ++ (cdataScan x).2)
      = flatSlots [] ++ (flatSlots (cdataScan x).1 ++ (cdataScan x).2) := hchain
    _ = x := by rw [show flatSlots [] = [] from rfl, List.nil_append, hflat]

example : natStr 12 = ['1', '2'] := by decide

example : placeholder 0 = "__CDATA_PLACEHOLDER_0__".data := by decide

example :
    cdataMatches "<a><![CDATA[x]]><![CDATA[y]]></a>".data =
      ["<![CDATA[x]]>".data, "<![CDATA[y]]>".data] := by decide

example :
    (extractCdata "<a><![CDATA[x]]></a>".data).1 =
      "<a>__CDATA_PLACEHOLDER_0__</a>".data := by decide

example :
    pretty_print_xml (fun s => some s) "<a><![CDATA[x]]></a>".data =
      some "<a><![CDATA[x]]></a>\n".data := by decide

example :
    removeBlankLines "a\n   \n\nb".data = "a\nb".data := by decide


theorem cdataMatches_of_no_close {s : Str} (h : splitFirst s cdClose = none) :
    cdataMatches s = [] := by
  cases h1 : splitFirst s cdOpen with
  | none => exact cdataMatches_none1 h1
  | some gr =>
    obtain ⟨g, rest⟩ := gr
    have hs : s = g ++ cdOpen ++ rest := splitFirst_some h1
    have hnc : NoOccWithin cdClose s := noOccWithin_of_splitFirst_none cdClose_ne_nil h
    have hrest : NoOccWithin cdClose rest := by
      refine noOccWithin_of_sublist ⟨g ++ cdOpen, [], ?_⟩ hnc
      rw [List.append_nil, hs, List.append_assoc]
    exact cdataMatches_none2 h1 (splitFirst_eq_none_of cdClose_ne_nil hrest)

/-- C6: the extraction scan decomposes the input into the gaps and the
matched sections, scanning left to right (no opening delimiter occurs
within a gap), each section closing at the first closing delimiter after
its opening delimiter (non-greedy, so adjacent sections are never merged);
no complete delimiter pair remains after the last match; and when the text
has no closing delimiter at all, an opening delimiter is not matched and
extraction leaves the working text untouched with no recorded section. -/
theorem C6_extraction_scan (s : Str) :
    (flatSlots (cdataScan s).1 ++ (cdataScan s).2 = s) ∧
    (∀ gm ∈ (cdataScan s).1, NoOccWithin cdOpen gm.1 ∧
      ∃ c, gm.2 = cdOpen ++ c ++ cdClose ∧ NoOccWithin cdClose c) ∧
    (¬ ∃ a c b, (cdataScan s).2 = a ++ cdOpen ++ c ++ cdClose ++ b) ∧
    (cdataMatches s = (cdataScan s).1.map Prod.snd) ∧
    (splitFirst s cdClose = none → extractCdata s = (s, [])) := by
  obtain ⟨h1, h2, h3, h4⟩ := cdataScan_spec s.length s (le_refl _)
  refine ⟨h1, h2, h3, h4, ?_⟩
  intro h
  unfold extractCdata
  rw [cdataMatches_of_no_close h]
  rfl

theorem occursIn_placeholder_of_sentinelFree {x : Str} (h : sentinelFree x = true)
    (i : Nat) : occursIn x (placeholder i) = false := by
  have hno := sentinelFree_noOcc h
  unfold occursIn
  cases heq : splitFirst x (placeholder i) with
  | none => rfl
  | some ab =>
    obtain ⟨a, b⟩ := ab
    exfalso
    have hx := splitFirst_some heq
    have hplen : 0 < (placeholder i).length := List.length_pos.mpr (placeholder_ne_nil i)
    apply hno a.length (by rw [hx]; simp; omega)
    have hpre : placeholder i <+: x.drop a.length := by
      rw [hx, List.drop_append_of_le_length (by simp), List.drop_left]
      exact List.prefix_append _ _
    exact (sentinel_prefix_placeholder i).trans hpre

/-- C3 counterexample: for a document that already contains the first
placeholder token, the token does occur as a pre-existing substring, it
appears twice (not once) in the intermediate working text produced by
extraction, and restoration does not reproduce the document. -/
theorem C3_placeholder_cex :
    occursIn "<![CDATA[x]]> __CDATA_PLACEHOLDER_0__".data (placeholder 0) = true ∧
    countOcc (extractCdata "<![CDATA[x]]> __CDATA_PLACEHOLDER_0__".data).1
      (placeholder 0) = 2 ∧
    restoreCdata (extractCdata "<![CDATA[x]]> __CDATA_PLACEHOLDER_0__".data).2
        (extractCdata "<![CDATA[x]]> __CDATA_PLACEHOLDER_0__".data).1 ≠
      "<![CDATA[x]]> __CDATA_PLACEHOLDER_0__".data :=
  ⟨by decide, by decide, by decide⟩

/-- C3 (amended): when the sentinel prefix does not occur in the document
and the per-step uniqueness checks of extraction and restoration hold, no
placeholder token occurs as a pre-existing substring of the document, the
working text is the scanned decomposition with the i-th section replaced
precisely at its own slot by the token of index i, the i-th extracted
section is recorded with the token of index i (index-for-index
correspondence), and restoration replaces each token by its own section,
reproducing the document byte for byte. -/
theorem C3_placeholder_tokens (x : Str)
    (hsf : sentinelFree x = true)
    (hext : extractUniqueF (cdataMatches x) 0 x = true)
    (hres : restoreUniqueF (extractCdata x).2 (extractCdata x).1 = true) :
    (∀ i, occursIn x (placeholder i) = false) ∧
    (extractCdata x).1 = flatSlots (substP 0 (cdataScan x).1) ++ (cdataScan x).2 ∧
    (extractCdata x).2 = buildSecs 0 (cdataMatches x) ∧
    restoreCdata (extractCdata x).2 (extractCdata x).1 = x := by
  refine ⟨fun i => occursIn_placeholder_of_sentinelFree hsf i, ?_, ?_, ?_⟩
  · exact congrArg Prod.fst (extractCdata_eq x hext)
  · exact extractLoop_sections (cdataMatches x) 0 x
  · exact vault_roundtrip x hsf hext hres

theorem C3_placeholder_tokens_witness :
    (∀ i, occursIn "<a><![CDATA[1]]><![CDATA[2]]></a>".data (placeholder i) = false) ∧
    (extractCdata "<a><![CDATA[1]]><![CDATA[2]]></a>".data).1 =
      flatSlots (substP 0 (cdataScan "<a><![CDATA[1]]><![CDATA[2]]></a>".data).1) ++
        (cdataScan "<a><![CDATA[1]]><![CDATA[2]]></a>".data).2 ∧
    (extractCdata "<a><![CDATA[1]]><![CDATA[2]]></a>".data).2 =
      buildSecs 0 (cdataMatches "<a><![CDATA[1]]><![CDATA[2]]></a>".data) ∧
    restoreCdata (extractCdata "<a><![CDATA[1]]><![CDATA[2]]></a>".data).2
        (extractCdata "<a><![CDATA[1]]><![CDATA[2]]></a>".data).1 =
      "<a><![CDATA[1]]><![CDATA[2]]></a>".data :=
  C3_placeholder_tokens "<a><![CDATA[1]]><![CDATA[2]]></a>".data
    (by decide) (by decide) (by decide)

/-- C9: a file whose content is empty or whitespace-only is skipped before
the validity check or the formatter ever run: format_xml_file returns
False and the stored content is unchanged, for every parser, formatter and
dry_run setting. -/
theorem C9_empty_skip (etParse : Str → Except PErr Unit) (fmt : Str → Option Str)
    (stored : Str) (dry_run : Bool) (h : (pyStrip stored).isEmpty = true) :
    format_xml_file etParse fmt stored dry_run = ⟨false, stored⟩ := by
  simp [format_xml_file, h]

theorem C9_empty_skip_witness :
    format_xml_file etParseOf specFormat "  \n  ".data false =
      ⟨false, "  \n  ".data⟩ :=
  C9_empty_skip etParseOf specFormat "  \n  ".data false (by decide)

/-- C10: under dry_run the stored content is never changed, while the
returned boolean is exactly the boolean the non-dry run would return. -/
theorem C10_dry_run (etParse : Str → Except PErr Unit) (fmt : Str → Option Str)
    (stored : Str) :
    (format_xml_file etParse fmt stored true).stored = stored ∧
    (format_xml_file etParse fmt stored true).ret =
      (format_xml_file etParse fmt stored false).ret := by
  unfold format_xml_file
  cases h1 : (pyStrip stored).isEmpty
  · cases h2 : etParse stored with
    | error e => simp
    | ok u =>
      cases h3 : pretty_print_xml fmt stored with
      | none => simp
      | some formatted =>
        by_cases h4 : pyStrip formatted = pyStrip stored <;> simp [h4]
  · simp

theorem pyRstrip_append_nl (t : Str) : pyRstrip (t ++ ['\n']) = pyRstrip t := by
  unfold pyRstrip
  rw [List.reverse_append]
  rw [show (['\n'] : Str).reverse ++ t.reverse = '\n' :: t.reverse from rfl]
  rw [List.dropWhile_cons_of_pos (by decide)]

theorem dropWhile_ws_append_nl (s : Str) : (s ++ ['\n']).dropWhile isWs =
    if (s.dropWhile isWs).isEmpty then [] else s.dropWhile isWs ++ ['\n'] := by
  induction s with
  | nil => rfl
  | cons c cs ih =>
    cases hc : isWs c with
    | true =>
      rw [show (c :: cs) ++ ['\n'] = c :: (cs ++ ['\n']) from rfl,
        List.dropWhile_cons_of_pos hc, List.dropWhile_cons_of_pos hc, ih]
    | false =>
      rw [show (c :: cs) ++ ['\n'] = c :: (cs ++ ['\n']) from rfl,
        List.dropWhile_cons_of_neg (by simp [hc]), List.dropWhile_cons_of_neg (by simp [hc])]
      rfl

theorem pyStrip_append_nl (s : Str) : pyStrip (s ++ ['\n']) = pyStrip s := by
  unfold pyStrip pyLstrip
  rw [dropWhile_ws_append_nl]
  cases he : (s.dropWhile isWs).isEmpty with
  | true =>
    rw [if_pos rfl]
    rw [List.isEmpty_iff] at he
    rw [he]
  | false =>
    rw [if_neg (by simp [he])]
    exact pyRstrip_append_nl _

/-- C4: a document the validity check rejects is never stored:
format_xml_file returns False with the stored content unchanged; the parse
error carries a non-empty human-readable reason; and in the directory loop
the failing file leaves every subsequent file processed exactly as it
would have been on its own. -/
theorem C4_parse_failure_safety (etParse : Str → Except PErr Unit)
    (fmt : Str → Option Str) (doc : Str) (dry_run : Bool) (pe : PErr)
    (hbad : etParse doc = Except.error pe) :
    format_xml_file etParse fmt doc dry_run = ⟨false, doc⟩ ∧
    perrMsg pe ≠ [] ∧
    (∀ etRoot validate nm fs,
      (format_directory etRoot etParse fmt validate dry_run ((nm, doc) :: fs)).1 =
        (nm, doc) :: (format_directory etRoot etParse fmt validate dry_run fs).1) := by
  have hfile : format_xml_file etParse fmt doc dry_run = ⟨false, doc⟩ := by
    unfold format_xml_file
    cases h1 : (pyStrip doc).isEmpty with
    | true => simp
    | false => simp [hbad]
  refine ⟨hfile, ?_, ?_⟩
  · cases pe with
    | perr m l c =>
      intro hcon
      have hcon2 : m ++ ": line ".data ++ natStr l ++ ", column ".data ++ natStr c =
          [] := hcon
      simp only [List.append_eq_nil] at hcon2
      exact absurd hcon2.2 (natStr_ne_nil c)
  · intro etRoot validate nm fs
    show (let vfail := validate && !(validate_xml_structure etRoot nm doc).1
      let r := format_directory etRoot etParse fmt validate dry_run fs
      let vinc := if vfail then 1 else 0
      if vfail && !dry_run then
        ((nm, doc) :: r.1, (r.2.1, r.2.2.1, r.2.2.2 + vinc))
      else
        let fr := format_xml_file etParse fmt doc dry_run
        ((nm, fr.stored) :: r.1,
          ((if fr.ret then r.2.1 + 1 else r.2.1),
           (if fr.ret then r.2.2.1 else r.2.2.1 + 1),
           r.2.2.2 + vinc))).1 = (nm, doc) ::
        (format_directory etRoot etParse fmt validate dry_run fs).1
    cases hv : validate && !(validate_xml_structure etRoot nm doc).1 && !dry_run with
    | true =>
      rw [show (validate && !(validate_xml_structure etRoot nm doc).1 && !dry_run) =
        ((validate && !(validate_xml_structure etRoot nm doc).1) && !dry_run) from rfl] at hv
      simp only [hv, if_true]
    | false =>
      rw [show (validate && !(validate_xml_structure etRoot nm doc).1 && !dry_run) =
        ((validate && !(validate_xml_structure etRoot nm doc).1) && !dry_run) from rfl] at hv
      simp only [hv, Bool.false_eq_true, if_false, hfile]

theorem C4_parse_failure_safety_witness :
    format_xml_file etParseOf specFormat "<unclosed>".data false =
      ⟨false, "<unclosed>".data⟩ ∧
    perrMsg (PErr.perr "not well-formed (invalid token)".data 1 0) ≠ [] ∧
    (∀ etRoot validate nm fs,
      (format_directory etRoot etParseOf specFormat validate false
          ((nm, "<unclosed>".data) :: fs)).1 =
        (nm, "<unclosed>".data) ::
          (format_directory etRoot etParseOf specFormat validate false fs).1) :=
  C4_parse_failure_safety etParseOf specFormat "<unclosed>".data false
    (PErr.perr "not well-formed (invalid token)".data 1 0) rfl

/-- C5: with a nonempty, valid document whose formatting succeeds, the
change detector declares no rewrite exactly when the formatted text equals
the original after trimming leading and trailing whitespace of the whole
document; in particular a formatted text differing from the original only
by a terminating line feed forces no rewrite; and the compared text is the
final text, produced after the literal sections are restored into the
formatter's output. -/
theorem C5_change_detector (etParse : Str → Except PErr Unit) (fmt : Str → Option Str)
    (stored f : Str) (dry_run : Bool)
    (hne : (pyStrip stored).isEmpty = false)
    (hok : etParse stored = Except.ok ())
    (hfmt : pretty_print_xml fmt stored = some f) :
    ((format_xml_file etParse fmt stored dry_run).ret = false ↔
      pyStrip f = pyStrip stored) ∧
    (f = stored ++ ['\n'] → (format_xml_file etParse fmt stored dry_run).ret = false) ∧
    (∃ p, fmt (extractCdata stored).1 = some p ∧
      f = pyRstrip (restoreCdata (extractCdata stored).2 (removeBlankLines p)) ++ ['\n']) := by
  have hiff : (format_xml_file etParse fmt stored dry_run).ret = false ↔
      pyStrip f = pyStrip stored := by
    unfold format_xml_file
    rw [if_neg (by simp [hne]), hok]
    show (match pretty_print_xml fmt stored with
      | none => (⟨false, stored⟩ : FileResult)
      | some formatted =>
        if pyStrip formatted = pyStrip stored then ⟨false, stored⟩
        else if dry_run then ⟨true, stored⟩
        else ⟨true, formatted⟩).ret = false ↔ pyStrip f = pyStrip stored
    rw [hfmt]
    by_cases hc : pyStrip f = pyStrip stored
    · simp [hc]
    · cases dry_run <;> simp [hc]
  refine ⟨hiff, ?_, ?_⟩
  · intro hfe
    apply hiff.mpr
    rw [hfe]
    exact pyStrip_append_nl stored
  · have hfmt2 : (match fmt (extractCdata stored).1 with
      | none => none
      | some pretty =>
        some (pyRstrip (restoreCdata (extractCdata stored).2
          (removeBlankLines pretty)) ++ ['\n'])) = some f := hfmt
    cases hp : fmt (extractCdata stored).1 with
    | none => rw [hp] at hfmt2; exact absurd hfmt2 (by simp)
    | some p =>
      rw [hp] at hfmt2
      simp only [Option.some.injEq] at hfmt2
      exact ⟨p, rfl, hfmt2.symm⟩

theorem C5_change_detector_witness :
    ((format_xml_file etParseOf specFormat
        "<?xml version=\"1.0\" encoding=\"UTF-8\"?>\n<a>t</a>".data false).ret = false ↔
      pyStrip "<?xml version=\"1.0\" encoding=\"UTF-8\"?>\n<a>t</a>\n".data =
        pyStrip "<?xml version=\"1.0\" encoding=\"UTF-8\"?>\n<a>t</a>".data) ∧
    ("<?xml version=\"1.0\" encoding=\"UTF-8\"?>\n<a>t</a>\n".data =
        "<?xml version=\"1.0\" encoding=\"UTF-8\"?>\n<a>t</a>".data ++ ['\n'] →
      (format_xml_file etParseOf specFormat
        "<?xml version=\"1.0\" encoding=\"UTF-8\"?>\n<a>t</a>".data false).ret = false) ∧
    (∃ p, specFormat
        (extractCdata "<?xml version=\"1.0\" encoding=\"UTF-8\"?>\n<a>t</a>".data).1 =
          some p ∧
      "<?xml version=\"1.0\" encoding=\"UTF-8\"?>\n<a>t</a>\n".data =
        pyRstrip (restoreCdata
          (extractCdata "<?xml version=\"1.0\" encoding=\"UTF-8\"?>\n<a>t</a>".data).2
          (removeBlankLines p)) ++ ['\n']) :=
  C5_change_detector etParseOf specFormat
    "<?xml version=\"1.0\" encoding=\"UTF-8\"?>\n<a>t</a>".data
    "<?xml version=\"1.0\" encoding=\"UTF-8\"?>\n<a>t</a>\n".data false
    (by decide) rfl (by decide)

/-- C8: for an addon.xml document whose root tag is correct but which lacks
required root attributes, validation returns success with exactly one
advisory warning listing exactly the missing attributes (those required
attributes not present on the root), and the directory loop still runs the
formatter on the file — validation does not block formatting. -/
theorem C8_validation_advisory (etRoot : Str → Except PErr (Str × List (Str × Str)))
    (content tag : Str) (attrib : List (Str × Str))
    (hroot : etRoot content = Except.ok (tag, attrib))
    (htag : tag = "addon".data)
    (hmiss : missingAttrs attrib ≠ []) :
    validate_xml_structure etRoot "addon.xml".data content =
      (true, [Warning.missingAttrList (missingAttrs attrib)]) ∧
    (∀ a, a ∈ missingAttrs attrib ↔ (a ∈ required_attrs ∧ a ∉ attrib.map Prod.fst)) ∧
    (∀ etParse fmt dry_run fs,
      (format_directory etRoot etParse fmt true dry_run
          (("addon.xml".data, content) :: fs)).1 =
        ("addon.xml".data, (format_xml_file etParse fmt content dry_run).stored) ::
          (format_directory etRoot etParse fmt true dry_run fs).1) := by
  have hval : validate_xml_structure etRoot "addon.xml".data content =
      (true, [Warning.missingAttrList (missingAttrs attrib)]) := by
    unfold validate_xml_structure
    rw [hroot]
    show (if "addon.xml".data = "addon.xml".data then _ else _) = _
    rw [if_pos rfl, htag, if_pos rfl]
    cases hm : missingAttrs attrib with
    | nil => exact absurd hm hmiss
    | cons a rest => rfl
  refine ⟨hval, ?_, ?_⟩
  · intro a
    unfold missingAttrs
    rw [List.mem_filter]
    simp
  · intro etParse fmt dry_run fs
    show (let vfail := true && !(validate_xml_structure etRoot "addon.xml".data content).1
      let r := format_directory etRoot etParse fmt true dry_run fs
      let vinc := if vfail then 1 else 0
      if vfail && !dry_run then
        (("addon.xml".data, content) :: r.1, (r.2.1, r.2.2.1, r.2.2.2 + vinc))
      else
        let fr := format_xml_file etParse fmt content dry_run
        (("addon.xml".data, fr.stored) :: r.1,
          ((if fr.ret then r.2.1 + 1 else r.2.1),
           (if fr.ret then r.2.2.1 else r.2.2.1 + 1),
           r.2.2.2 + vinc))).1 = ("addon.xml".data,
            (format_xml_file etParse fmt content dry_run).stored) ::
          (format_directory etRoot etParse fmt true dry_run fs).1
    rw [hval]
    simp

theorem C8_validation_advisory_witness :
    validate_xml_structure etRootOf "addon.xml".data
        "<addon id=\"i\" name=\"n\"></addon>".data =
      (true, [Warning.missingAttrList
        (missingAttrs [("id".data, "i".data), ("name".data, "n".data)])]) ∧
    (∀ a, a ∈ missingAttrs [("id".data, "i".data), ("name".data, "n".data)] ↔
      (a ∈ required_attrs ∧
        a ∉ ([("id".data, "i".data), ("name".data, "n".data)] :
          List (Str × Str)).map Prod.fst)) ∧
    (∀ etParse fmt dry_run fs,
      (format_directory etRootOf etParse fmt true dry_run
          (("addon.xml".data, "<addon id=\"i\" name=\"n\"></addon>".data) :: fs)).1 =
        ("addon.xml".data, (format_xml_file etParse fmt
            "<addon id=\"i\" name=\"n\"></addon>".data dry_run).stored) ::
          (format_directory etRootOf etParse fmt true dry_run fs).1) :=
  C8_validation_advisory etRootOf "<addon id=\"i\" name=\"n\"></addon>".data
    "addon".data [("id".data, "i".data), ("name".data, "n".data)]
    rfl rfl (by decide)

theorem splitNl_ne_nil : ∀ s : Str, splitNl s ≠ []
  | [] => by simp [splitNl]
  | c :: cs => by
    unfold splitNl
    by_cases hc : c = '\n'
    · simp [hc]
    · rw [if_neg hc]
      cases h : splitNl cs <;> simp

theorem splitNl_no_nl : ∀ s : Str, ∀ l ∈ splitNl s, '\n' ∉ l := by
  intro s
  induction s with
  | nil =>
    intro l hl
    simp [splitNl] at hl
    subst hl
    simp
  | cons c cs ih =>
    intro l hl
    unfold splitNl at hl
    by_cases hc : c = '\n'
    · rw [if_pos hc] at hl
      rcases List.mem_cons.mp hl with rfl | h2
      · simp
      · exact ih l h2
    · rw [if_neg hc] at hl
      cases hsp : splitNl cs with
      | nil => exact absurd hsp (splitNl_ne_nil cs)
      | cons l0 ls =>
        rw [hsp] at hl
        rcases List.mem_cons.mp hl with rfl | h2
        · intro hmem
          rcases List.mem_cons.mp hmem with heq | h3
          · exact hc heq.symm
          · exact ih l0 (by rw [hsp]; simp) h3
        · exact ih l (by rw [hsp]; simp [h2])

theorem splitNl_of_no_nl : ∀ l : Str, '\n' ∉ l → splitNl l = [l] := by
  intro l
  induction l with
  | nil => intro h; rfl
  | cons c cs ih =>
    intro h
    unfold splitNl
    rw [if_neg (fun hc => h (by rw [hc]; simp))]
    rw [ih (fun hm => h (by simp [hm]))]

theorem splitNl_append_nl : ∀ (l t : Str), '\n' ∉ l →
    splitNl (l ++ '\n' :: t) = l :: splitNl t := by
  intro l
  induction l with
  | nil => intro t h; rfl
  | cons c cs ih =>
    intro t h
    rw [show (c :: cs) ++ '\n' :: t = c :: (cs ++ '\n' :: t) from rfl]
    conv_lhs => unfold splitNl
    rw [if_neg (fun hc => h (by rw [hc]; simp))]
    rw [ih t (fun hm => h (by simp [hm]))]

theorem splitNl_joinNl : ∀ ls : List Str, ls ≠ [] → (∀ l ∈ ls, '\n' ∉ l) →
    splitNl (joinNl ls) = ls := by
  intro ls
  induction ls with
  | nil => intro h _; exact absurd rfl h
  | cons l rest ih =>
    intro _ hnl
    cases rest with
    | nil => exact splitNl_of_no_nl l (hnl l (by simp))
    | cons l2 rest2 =>
      rw [show joinNl (l :: l2 :: rest2) = l ++ '\n' :: joinNl (l2 :: rest2) from rfl]
      rw [splitNl_append_nl l _ (hnl l (by simp))]
      rw [ih (by simp) (fun m hm => hnl m (by simp [hm]))]

theorem removeBlankLines_no_blank (s : Str) :
    removeBlankLines s = [] ∨
    ∀ l ∈ splitNl (removeBlankLines s), (pyStrip l).isEmpty = false := by
  by_cases hls : (splitNl s).filter (fun l => !(pyStrip l).isEmpty) = []
  · left
    unfold removeBlankLines
    rw [hls]
    rfl
  · right
    unfold removeBlankLines
    have hnl : ∀ l ∈ (splitNl s).filter (fun l => !(pyStrip l).isEmpty), '\n' ∉ l := by
      intro l hl
      exact splitNl_no_nl s l (List.mem_of_mem_filter hl)
    rw [splitNl_joinNl _ hls hnl]
    intro l hl
    have hf := List.of_mem_filter hl
    simpa using hf

theorem head_dropWhile_not (p : Char → Bool) : ∀ (l : Str) (c : Char),
    (l.dropWhile p).head? = some c → p c = false := by
  intro l
  induction l with
  | nil => intro c h; simp at h
  | cons a as ih =>
    intro c h
    cases hp : p a with
    | true =>
      rw [List.dropWhile_cons_of_pos hp] at h
      exact ih c h
    | false =>
      rw [List.dropWhile_cons_of_neg (by simp [hp])] at h
      simp at h
      rw [← h]
      exact hp

theorem pyRstrip_getLast {s : Str} {c : Char} (h : (pyRstrip s).getLast? = some c) :
    isWs c = false := by
  unfold pyRstrip at h
  rw [List.getLast?_reverse] at h
  exact head_dropWhile_not isWs s.reverse c h

/-- C7: a successful run of pretty_print_xml removes from the formatter's
output every line whose content is only whitespace before the literal
sections are restored, and terminates the final text with exactly one
trailing line feed: the output is a right-stripped text — whose last
character, if any, is not whitespace — followed by one line feed. -/
theorem C7_output_cleanup (fmt : Str → Option Str) (x out : Str)
    (h : pretty_print_xml fmt x = some out) :
    ∃ pretty, fmt (extractCdata x).1 = some pretty ∧
      (removeBlankLines pretty = [] ∨
        ∀ l ∈ splitNl (removeBlankLines pretty), (pyStrip l).isEmpty = false) ∧
      out = pyRstrip (restoreCdata (extractCdata x).2 (removeBlankLines pretty)) ++
        ['\n'] ∧
      (∀ c, (pyRstrip (restoreCdata (extractCdata x).2
          (removeBlankLines pretty))).getLast? = some c → isWs c = false) := by
  have h2 : (match fmt (extractCdata x).1 with
    | none => none
    | some pretty => some (pyRstrip (restoreCdata (extractCdata x).2
        (removeBlankLines pretty)) ++ ['\n'])) = some out := h
  cases hp : fmt (extractCdata x).1 with
  | none =>
    rw [hp] at h2
    exact absurd h2 (by simp)
  | some pretty =>
    rw [hp] at h2
    simp only [Option.some.injEq] at h2
    exact ⟨pretty, rfl, removeBlankLines_no_blank pretty, h2.symm,
      fun c hc => pyRstrip_getLast hc⟩

theorem C7_output_cleanup_witness :
    ∃ pretty, specFormat (extractCdata "<a><![CDATA[x]]></a>".data).1 = some pretty ∧
      (removeBlankLines pretty = [] ∨
        ∀ l ∈ splitNl (removeBlankLines pretty), (pyStrip l).isEmpty = false) ∧
      "<?xml version=\"1.0\" encoding=\"UTF-8\"?>\n<a><![CDATA[x]]></a>\n".data =
        pyRstrip (restoreCdata (extractCdata "<a><![CDATA[x]]></a>".data).2
          (removeBlankLines pretty)) ++ ['\n'] ∧
      (∀ c, (pyRstrip (restoreCdata (extractCdata "<a><![CDATA[x]]></a>".data).2
          (removeBlankLines pretty))).getLast? = some c → isWs c = false) :=
  C7_output_cleanup specFormat "<a><![CDATA[x]]></a>".data
    "<?xml version=\"1.0\" encoding=\"UTF-8\"?>\n<a><![CDATA[x]]></a>\n".data
    (by decide)

theorem layout_decomp : ∀ (secs : List (Str × Str)) (t : Str),
    layoutOkF secs t = true →
    ∃ (gaps : List Str) (vlast : Str),
      gaps.length = secs.length ∧
      (∀ u ∈ gaps, sentinelFree u = true) ∧
      sentinelFree vlast = true ∧
      t = flatSlots (gaps.zip (secs.map Prod.fst)) ++ vlast := by
  intro secs
  induction secs with
  | nil =>
    intro t h
    exact ⟨[], t, rfl, by simp, h, rfl⟩
  | cons pm rest ih =>
    intro t h
    obtain ⟨p, m⟩ := pm
    unfold layoutOkF at h
    cases hsp : splitFirst t p with
    | none => rw [hsp] at h; cases h
    | some ab =>
      obtain ⟨a, b⟩ := ab
      rw [hsp] at h
      simp only [Bool.and_eq_true] at h
      obtain ⟨ha, hb⟩ := h
      obtain ⟨gaps, vlast, hlen, hgaps, hv, hdec⟩ := ih b hb
      refine ⟨a :: gaps, vlast, by simp [hlen], ?_, hv, ?_⟩
      · intro u hu
        rcases List.mem_cons.mp hu with rfl | h2
        · exact ha
        · exact hgaps u h2
      · have ht := splitFirst_some hsp
        rw [ht, hdec]
        rw [show ((a :: gaps).zip (((p, m) :: rest).map Prod.fst)) =
          (a, p) :: gaps.zip (rest.map Prod.fst) from rfl]
        rw [show flatSlots ((a, p) :: gaps.zip (rest.map Prod.fst)) =
          a ++ (p ++ flatSlots (gaps.zip (rest.map Prod.fst))) from by
            rw [show flatSlots ((a, p) :: gaps.zip (rest.map Prod.fst)) =
              a ++ p ++ flatSlots (gaps.zip (rest.map Prod.fst)) from rfl]
            rw [List.append_assoc]]
        simp [List.append_assoc]

theorem buildSecs_length : ∀ (ms : List Str) (i : Nat),
    (buildSecs i ms).length = ms.length := by
  intro ms
  induction ms with
  | nil => intro i; rfl
  | cons m ms2 ih =>
    intro i
    show (buildSecs (i + 1) ms2).length + 1 = ms2.length + 1
    rw [ih]

theorem zip_buildSecs : ∀ (ms gaps : List Str) (i : Nat),
    gaps.length = ms.length →
    gaps.zip ((buildSecs i ms).map Prod.fst) = substP i (gaps.zip ms) := by
  intro ms
  induction ms with
  | nil =>
    intro gaps i hl
    have hg : gaps = [] := List.eq_nil_of_length_eq_zero hl
    subst hg
    rfl
  | cons m ms2 ih =>
    intro gaps i hl
    cases gaps with
    | nil => simp at hl
    | cons g gs =>
      simp only [List.length_cons] at hl
      show (g :: gs).zip (placeholder i :: (buildSecs (i + 1) ms2).map Prod.fst) =
        (g, placeholder i) :: substP (i + 1) (gs.zip ms2)
      rw [List.zip_cons_cons, ih gs (i + 1) (by omega)]

theorem matches_shape {x m : Str} (hm : m ∈ cdataMatches x) :
    ∃ c, m = cdOpen ++ c ++ cdClose := by
  obtain ⟨hflat, hitems, hlast, hmatch⟩ := cdataScan_spec x.length x (le_refl _)
  rw [hmatch] at hm
  obtain ⟨gm, hgm, rfl⟩ := List.mem_map.mp hm
  obtain ⟨-, c, hc, -⟩ := hitems gm hgm
  exact ⟨c, hc⟩

theorem matches_within {x m : Str} (hm : m ∈ cdataMatches x) : m <:+: x := by
  obtain ⟨hflat, hitems, hlast, hmatch⟩ := cdataScan_spec x.length x (le_refl _)
  rw [hmatch] at hm
  obtain ⟨gm, hgm, rfl⟩ := List.mem_map.mp hm
  have hinf := flatSlots_infix (cdataScan x).1 (cdataScan x).2 gm hgm
  rw [hflat] at hinf
  exact hinf.2

/-- C1 (amended): when the sentinel does not occur in the document and the
formatter's output, after blank-line removal, lays the placeholder tokens
out in index order between sentinel-free pieces, with each token occurring
exactly once at its restoration step, the pipeline's output is exactly
those pieces interleaved with the N original literal sections, byte for
byte, in extraction order: no section is dropped, merged, duplicated or
altered before the final right-strip-and-newline step. -/
theorem C1_literal_roundtrip (fmt : Str → Option Str) (x p : Str)
    (hsf : sentinelFree x = true)
    (hfmt : fmt (extractCdata x).1 = some p)
    (hlay : layoutOkF (extractCdata x).2 (removeBlankLines p) = true)
    (hres : restoreUniqueF (extractCdata x).2 (removeBlankLines p) = true) :
    ∃ (gaps : List Str) (vlast : Str),
      gaps.length = (cdataMatches x).length ∧
      (∀ u ∈ gaps, sentinelFree u = true) ∧
      sentinelFree vlast = true ∧
      pretty_print_xml fmt x =
        some (pyRstrip (flatSlots (gaps.zip (cdataMatches x)) ++ vlast) ++ ['\n']) := by
  have hsecs : (extractCdata x).2 = buildSecs 0 (cdataMatches x) :=
    extractLoop_sections (cdataMatches x) 0 x
  rw [hsecs] at hlay hres
  obtain ⟨gaps, vlast, hlen, hgaps, hv, hdec⟩ := layout_decomp _ _ hlay
  have hlen2 : gaps.length = (cdataMatches x).length := by
    rw [hlen, buildSecs_length]
  have hzip : gaps.zip ((buildSecs 0 (cdataMatches x)).map Prod.fst) =
      substP 0 (gaps.zip (cdataMatches x)) := zip_buildSecs (cdataMatches x) gaps 0 hlen2
  rw [hzip] at hdec
  set pairs := gaps.zip (cdataMatches x) with hpairs
  have hmap : pairs.map Prod.snd = cdataMatches x :=
    List.map_snd_zip gaps (cdataMatches x) (le_of_eq hlen2.symm)
  have hsent := sentinelFree_noOcc hsf
  have hvm : ∀ vm ∈ pairs, NoOccWithin sentinel vm.1 ∧
      (∃ c, vm.2 = cdOpen ++ c ++ cdClose) ∧ NoOccWithin sentinel vm.2 := by
    intro vm hvm
    obtain ⟨h1, h2⟩ := List.of_mem_zip hvm
    exact ⟨sentinelFree_noOcc (hgaps vm.1 h1), matches_shape h2,
      noOccWithin_of_sublist (matches_within h2) hsent⟩
  have huniq : restoreUniqueF (buildSecs 0 (pairs.map Prod.snd))
      (flatSlots [] ++ (flatSlots (substP 0 pairs) ++ vlast)) = true := by
    rw [hmap]
    rw [show flatSlots [] ++ (flatSlots (substP 0 pairs) ++ vlast) =
      flatSlots (substP 0 pairs) ++ vlast from by
        rw [show flatSlots [] = ([] : Str) from rfl, List.nil_append]]
    rw [← hdec]
    exact hres
  have hchain := restore_chain pairs vlast 0 [] (by simp) hvm huniq
  refine ⟨gaps, vlast, hlen2, hgaps, hv, ?_⟩
  have hppx : pretty_print_xml fmt x = (match fmt (extractCdata x).1 with
    | none => none
    | some pretty => some (pyRstrip (restoreCdata (extractCdata x).2
        (removeBlankLines pretty)) ++ ['\n'])) := rfl
  rw [hppx, hfmt]
  show some (pyRstrip (restoreCdata (extractCdata x).2 (removeBlankLines p)) ++ ['\n']) =
    some (pyRstrip (flatSlots pairs ++ vlast) ++ ['\n'])
  congr 3
  rw [hsecs, hdec, ← hmap]
  calc restoreCdata (buildSecs 0 (pairs.map Prod.snd))
        (flatSlots (substP 0 pairs) ++ vlast)
      = restoreCdata (buildSecs 0 (pairs.map Prod.snd))
        (flatSlots [] ++ (flatSlots (substP 0 pairs) ++ vlast)) := rfl
    _ = flatSlots [] ++ (flatSlots pairs ++ vlast) := hchain
    _ = flatSlots pairs ++ vlast := by
        rw [show flatSlots [] = ([] : Str) from rfl, List.nil_append]

/-- C1 counterexample: a well-formed document holding one literal section
and, as ordinary text, the token the vault will choose for it; the pipeline
duplicates the section — the output holds two copies of the opening
delimiter where the input held one section. -/
theorem C1_roundtrip_cex :
    (cdataMatches "<a><![CDATA[x]]> __CDATA_PLACEHOLDER_0__</a>".data).length = 1 ∧
    pretty_print_xml specFormat "<a><![CDATA[x]]> __CDATA_PLACEHOLDER_0__</a>".data =
      some "<?xml version=\"1.0\" encoding=\"UTF-8\"?>\n<a><![CDATA[x]]> <![CDATA[x]]></a>\n".data ∧
    countOcc "<?xml version=\"1.0\" encoding=\"UTF-8\"?>\n<a><![CDATA[x]]> <![CDATA[x]]></a>\n".data
      cdOpen = 2 :=
  ⟨by decide, by decide, by decide⟩

theorem C1_literal_roundtrip_witness :
    ∃ (gaps : List Str) (vlast : Str),
      gaps.length = (cdataMatches "<a><![CDATA[1]]><![CDATA[2]]></a>".data).length ∧
      (∀ u ∈ gaps, sentinelFree u = true) ∧
      sentinelFree vlast = true ∧
      pretty_print_xml specFormat "<a><![CDATA[1]]><![CDATA[2]]></a>".data =
        some (pyRstrip (flatSlots
          (gaps.zip (cdataMatches "<a><![CDATA[1]]><![CDATA[2]]></a>".data)) ++ vlast) ++
          ['\n']) :=
  C1_literal_roundtrip specFormat "<a><![CDATA[1]]><![CDATA[2]]></a>".data
    "<?xml version=\"1.0\" encoding=\"UTF-8\"?>\n<a>__CDATA_PLACEHOLDER_0____CDATA_PLACEHOLDER_1__</a>\n".data
    (by decide) (by decide) (by decide) (by decide)

theorem rstrip_split (s : Str) :
    s = pyRstrip s ++ (s.reverse.takeWhile isWs).reverse ∧
    ∀ c ∈ (s.reverse.takeWhile isWs).reverse, isWs c = true := by
  constructor
  · unfold pyRstrip
    calc s = s.reverse.reverse := (List.reverse_reverse s).symm
      _ = (s.reverse.takeWhile isWs ++ s.reverse.dropWhile isWs).reverse := by
          rw [List.takeWhile_append_dropWhile]
      _ = (s.reverse.dropWhile isWs).reverse ++ (s.reverse.takeWhile isWs).reverse := by
          rw [List.reverse_append]
  · intro c hc
    rw [List.mem_reverse] at hc
    exact List.mem_takeWhile_imp hc

theorem pyRstrip_append_allWs {X w : Str} (hw : ∀ c ∈ w, isWs c = true) :
    pyRstrip (X ++ w) = pyRstrip X := by
  have hnil : (w.reverse.dropWhile isWs).isEmpty = true := by
    rw [List.isEmpty_iff, List.dropWhile_eq_nil_iff]
    intro a ha
    exact hw a (List.mem_reverse.mp ha)
  unfold pyRstrip
  rw [List.reverse_append, List.dropWhile_append, if_pos hnil]

theorem pyRstrip_append_pyRstrip (A B : Str) :
    pyRstrip (A ++ pyRstrip B) = pyRstrip (A ++ B) := by
  obtain ⟨hsplit, hws⟩ := rstrip_split B
  conv_rhs => rw [hsplit]
  rw [← List.append_assoc, pyRstrip_append_allWs hws]

theorem pyRstrip_eq_self {X : Str} (h : ∀ c, X.getLast? = some c → isWs c = false) :
    pyRstrip X = X := by
  unfold pyRstrip
  cases hx : X.reverse with
  | nil =>
    have : X = [] := by
      have := congrArg List.reverse hx
      rwa [List.reverse_reverse] at this
    rw [this]
    rfl
  | cons c cs =>
    have hc : X.getLast? = some c := by
      rw [← List.head?_reverse, hx]
      rfl
    have hnw := h c hc
    rw [List.dropWhile_cons_of_neg (by simp [hnw])]
    rw [← hx, List.reverse_reverse]

theorem pyRstrip_append_left {A tail : Str} (h : pyRstrip tail ≠ []) :
    pyRstrip (A ++ tail) = A ++ pyRstrip tail := by
  obtain ⟨hsplit, hws⟩ := rstrip_split tail
  conv_lhs => rw [hsplit]
  rw [← List.append_assoc, pyRstrip_append_allWs hws]
  apply pyRstrip_eq_self
  intro c hc
  rw [List.getLast?_append_of_ne_nil A h] at hc
  exact pyRstrip_getLast hc

/-- C2 (amended): formatting already-canonical text is a no-op when the
collision checks pass on it and the DOM stage is stable on its working
text: for a text of the pipeline's output shape (right-stripped body plus
one line feed) that is sentinel-free, whose extraction and restoration
steps are collision-free, and whose working text the formatter reproduces
(up to the blank-line cleanup), a second run returns the text unchanged,
and format_xml_file reports no rewrite with the stored content untouched. -/
theorem C2_idempotent (fmt : Str → Option Str) (y p : Str)
    (hsf : sentinelFree y = true)
    (hext : extractUniqueF (cdataMatches y) 0 y = true)
    (hres : restoreUniqueF (extractCdata y).2 (pyRstrip (extractCdata y).1) = true)
    (htail : pyRstrip (cdataScan y).2 ≠ [])
    (hy : pyRstrip y ++ ['\n'] = y)
    (hp : fmt (extractCdata y).1 = some p)
    (hp1 : removeBlankLines p = pyRstrip (extractCdata y).1) :
    pretty_print_xml fmt y = some y ∧
    (∀ etParse dry_run, etParse y = Except.ok () →
      format_xml_file etParse fmt y dry_run = ⟨false, y⟩) := by
  obtain ⟨hflat, hitems, hlast, hmatch⟩ := cdataScan_spec y.length y (le_refl _)
  have hsent := sentinelFree_noOcc hsf
  have hW1 : (extractCdata y).1 =
      flatSlots (substP 0 (cdataScan y).1) ++ (cdataScan y).2 :=
    congrArg Prod.fst (extractCdata_eq y hext)
  have hrs : pyRstrip (extractCdata y).1 =
      flatSlots (substP 0 (cdataScan y).1) ++ pyRstrip (cdataScan y).2 := by
    rw [hW1, pyRstrip_append_left htail]
  have hvm : ∀ vm ∈ (cdataScan y).1, NoOccWithin sentinel vm.1 ∧
      (∃ c, vm.2 = cdOpen ++ c ++ cdClose) ∧ NoOccWithin sentinel vm.2 := by
    intro vm hvm
    obtain ⟨-, c, h2, -⟩ := hitems vm hvm
    have hinf := flatSlots_infix (cdataScan y).1 (cdataScan y).2 vm hvm
    rw [hflat] at hinf
    exact ⟨noOccWithin_of_sublist hinf.1 hsent, ⟨c, h2⟩,
      noOccWithin_of_sublist hinf.2 hsent⟩
  have hsecs : (extractCdata y).2 = buildSecs 0 (cdataMatches y) :=
    extractLoop_sections (cdataMatches y) 0 y
  have huniq : restoreUniqueF (buildSecs 0 ((cdataScan y).1.map Prod.snd))
      (flatSlots [] ++ (flatSlots (substP 0 (cdataScan y).1) ++
        pyRstrip (cdataScan y).2)) = true := by
    rw [show flatSlots [] ++ (flatSlots (substP 0 (cdataScan y).1) ++
        pyRstrip (cdataScan y).2) =
      flatSlots (substP 0 (cdataScan y).1) ++ pyRstrip (cdataScan y).2 from by
        rw [show flatSlots [] = ([] : Str) from rfl, List.nil_append]]
    rw [← hrs, ← hmatch, ← hsecs]
    exact hres
  have hchain := restore_chain (cdataScan y).1 (pyRstrip (cdataScan y).2) 0 []
    (by simp) hvm huniq
  have hrestore : restoreCdata (extractCdata y).2 (removeBlankLines p) =
      flatSlots (cdataScan y).1 ++ pyRstrip (cdataScan y).2 := by
    rw [hp1, hrs, hsecs, hmatch]
    calc restoreCdata (buildSecs 0 ((cdataScan y).1.map Prod.snd))
          (flatSlots (substP 0 (cdataScan y).1) ++ pyRstrip (cdataScan y).2)
        = restoreCdata (buildSecs 0 ((cdataScan y).1.map Prod.snd))
          (flatSlots [] ++ (flatSlots (substP 0 (cdataScan y).1) ++
            pyRstrip (cdataScan y).2)) := rfl
      _ = flatSlots [] ++ (flatSlots (cdataScan y).1 ++ pyRstrip (cdataScan y).2) :=
          hchain
      _ = flatSlots (cdataScan y).1 ++ pyRstrip (cdataScan y).2 := by
          rw [show flatSlots [] = ([] : Str) from rfl, List.nil_append]
  have hout : pretty_print_xml fmt y = some y := by
    have hppx : pretty_print_xml fmt y = (match fmt (extractCdata y).1 with
      | none => none
      | some pretty => some (pyRstrip (restoreCdata (extractCdata y).2
          (removeBlankLines pretty)) ++ ['\n'])) := rfl
    rw [hppx, hp]
    show some (pyRstrip (restoreCdata (extractCdata y).2 (removeBlankLines p)) ++
      ['\n']) = some y
    rw [hrestore, pyRstrip_append_pyRstrip, hflat, hy]
  refine ⟨hout, ?_⟩
  intro etParse dry_run hok
  unfold format_xml_file
  cases he : (pyStrip y).isEmpty with
  | true => simp
  | false =>
    rw [hok]
    show (match pretty_print_xml fmt y with
      | none => (⟨false, y⟩ : FileResult)
      | some formatted =>
        if pyStrip formatted = pyStrip y then ⟨false, y⟩
        else if dry_run then ⟨true, y⟩
        else ⟨true, formatted⟩) = ⟨false, y⟩
    rw [hout]
    simp

/-- C2 counterexample: a well-formed document whose literal section already
contains the second placeholder token; the first run formats it, but its
output no longer parses (the restored text carries a stray section-closing
delimiter in character data), so the second run fails instead of
reproducing the output. -/
theorem C2_idempotence_cex :
    pretty_print_xml specFormat
      "<a><![CDATA[__CDATA_PLACEHOLDER_1__]]><![CDATA[B]]></a>".data =
      some "<?xml version=\"1.0\" encoding=\"UTF-8\"?>\n<a><![CDATA[<![CDATA[B]]>]]><![CDATA[B]]></a>\n".data ∧
    pretty_print_xml specFormat
      "<?xml version=\"1.0\" encoding=\"UTF-8\"?>\n<a><![CDATA[<![CDATA[B]]>]]><![CDATA[B]]></a>\n".data =
      none :=
  ⟨by decide, by decide⟩

theorem C2_idempotent_witness :
    pretty_print_xml specFormat
      "<?xml version=\"1.0\" encoding=\"UTF-8\"?>\n<a><![CDATA[Q]]></a>\n".data =
      some "<?xml version=\"1.0\" encoding=\"UTF-8\"?>\n<a><![CDATA[Q]]></a>\n".data ∧
    (∀ etParse dry_run,
      etParse "<?xml version=\"1.0\" encoding=\"UTF-8\"?>\n<a><![CDATA[Q]]></a>\n".data =
        Except.ok () →
      format_xml_file etParse specFormat
          "<?xml version=\"1.0\" encoding=\"UTF-8\"?>\n<a><![CDATA[Q]]></a>\n".data
          dry_run =
        ⟨false, "<?xml version=\"1.0\" encoding=\"UTF-8\"?>\n<a><![CDATA[Q]]></a>\n".data⟩) :=
  C2_idempotent specFormat
    "<?xml version=\"1.0\" encoding=\"UTF-8\"?>\n<a><![CDATA[Q]]></a>\n".data
    "<?xml version=\"1.0\" encoding=\"UTF-8\"?>\n<a>__CDATA_PLACEHOLDER_0__</a>\n".data
    (by decide) (by decide) (by decide) (by decide) (by decide) (by decide) (by decide)
